import Mathlib

/-!
# CNN_PureC: shallow embedding of the numeric engine

The C sources under `lib/` are translated function by function.

* `double` is an arbitrary linearly ordered field `α` (instantiated with `ℝ`
  for the statements that are read over the real numbers, and with `ℚ` for
  concrete evaluation); `exp` and `log` are parameters of the functions that
  call them.
* `double*`, `double**`, `double***` are `List α`, `List (List α)`,
  `List (List (List α))`.  A read `xs[i]` is `rd xs i` (value `0` outside the
  list, where the C program has no defined value); a write `xs[i] = v` is
  `wr xs i v` (no effect outside the list).
* `int` sizes, indices and labels are natural numbers; `a - b` is used only
  where the C value is non-negative (`divisor ≥ 1`, `divisor - 1 ≤ width`).
* A `for (int i = 0; i < n; i++)` loop is `forLoop n body s`: the body is a
  state transformer, run for `i = 0, 1, …, n-1` in this order.
* Functions that mutate a layer in place return the new layer.
-/

namespace CNN

/-! ## Loops and arrays -/

/-- C loop `for (int i = 0; i < n; i++) s = body i s`. -/
def forLoop {σ : Type} (n : Nat) (body : Nat → σ → σ) (s : σ) : σ :=
  match n with
  | 0 => s
  | k + 1 => body k (forLoop k body s)

/-- Read `xs[i]`. -/
def rd {α : Type} [Zero α] (xs : List α) (i : Nat) : α := xs.getD i 0

/-- Read `xs[i][j]`. -/
def rd2 {α : Type} [Zero α] (xs : List (List α)) (i j : Nat) : α := rd (xs.getD i []) j

/-- Read `xs[k][i][j]`. -/
def rd3 {α : Type} [Zero α] (xs : List (List (List α))) (k i j : Nat) : α :=
  rd2 (xs.getD k []) i j

/-- Write `xs[i] = v`. -/
def wr {β : Type} (xs : List β) (i : Nat) (v : β) : List β := xs.set i v

/-- Write `xs[i][j] = v`. -/
def wr2 {β : Type} (xs : List (List β)) (i j : Nat) (v : β) : List (List β) :=
  xs.set i ((xs.getD i []).set j v)

/-- Write `xs[k][i][j] = v`. -/
def wr3 {β : Type} (xs : List (List (List β))) (k i j : Nat) (v : β) : List (List (List β)) :=
  xs.set k (wr2 (xs.getD k []) i j v)

/-- Block of `n` doubles from `malloc`/`calloc` (contents taken as `0`). -/
def malloc {α : Type} [Zero α] (n : Nat) : List α := List.replicate n 0

/-- Block of `n` row pointers from `malloc` (rows not yet allocated). -/
def mallocPtr {β : Type} (n : Nat) : List (List β) := List.replicate n []

/-- Conversion of a `double` argument to an `int` parameter: truncation toward zero. -/
def doubleToInt {α : Type} [LinearOrderedField α] [FloorRing α] (x : α) : Int :=
  if 0 ≤ x then Int.floor x else Int.ceil x

/-! ## Layers (`convolution.h`, `dense.h`) -/

/-- Struct `ConvLayer`. -/
structure ConvLayer (α : Type) where
  numFilters : Nat
  filterSize : Nat
  filters : List (List (List α))

/-- Struct `DenseLayer`. -/
structure DenseLayer (α : Type) where
  size : Nat
  biases : List α
  weights : List (List α)

section Engine

variable {α : Type} [LinearOrderedField α]

/-! ## output.c -/

/-- Function `softmax(input, size)` of output.c. -/
def softmax (exp : α → α) (input : List α) (size : Nat) : List α :=
  let output : List α := malloc size
  let sum : α := forLoop size (fun i sum => sum + exp (rd input i)) 0
  forLoop size (fun i output => wr output i (exp (rd input i) / sum)) output

/-- Function `loss(probs, label)` of output.c. -/
def loss (log : α → α) (probs : List α) (label : Nat) : α :=
  -log (rd probs label)

/-! ## convolution.c -/

/-- Function `convolutionGrid(image, width, height, divisor)` of convolution.c. -/
def convolutionGrid (image : List (List α)) (width height divisor : Nat) : List (List α) :=
  let grid : List (List α) := mallocPtr ((width - (divisor - 1)) * (height - (divisor - 1)))
  forLoop (width - (divisor - 1)) (fun i grid =>
    forLoop (height - (divisor - 1)) (fun j grid =>
      let cell : List α := malloc (divisor * divisor)
      let cell := forLoop divisor (fun k cell =>
        forLoop divisor (fun l cell =>
          wr cell (k * divisor + l) (rd2 image (i + k) (j + l))) cell) cell
      wr grid (i * (height - (divisor - 1)) + j) cell) grid) grid

/-- Function `convolution(filter, cell)` of convolution.c: the bounds `3` are literal. -/
def convolution (filter : List (List α)) (cell : List α) : α :=
  forLoop 3 (fun i sum =>
    forLoop 3 (fun j sum => sum + rd cell (i * 3 + j) * rd2 filter i j) sum) 0

/-- Function `convolutionForward(convLayer, image, width, height, divisor)` of convolution.c. -/
def convolutionForward (convLayer : ConvLayer α) (image : List (List α))
    (width height divisor : Nat) : List (List α) :=
  let grid := convolutionGrid image width height divisor
  let output : List (List α) := mallocPtr ((width - (divisor - 1)) * (height - (divisor - 1)))
  forLoop (width - (divisor - 1)) (fun i output =>
    forLoop (height - (divisor - 1)) (fun j output =>
      let output := wr output (i * (height - (divisor - 1)) + j) (malloc convLayer.numFilters)
      forLoop convLayer.numFilters (fun k output =>
        wr2 output (i * (height - (divisor - 1)) + j) k
          (convolution (convLayer.filters.getD k [])
            (grid.getD (i * (height - (divisor - 1)) + j) []))) output) output) output

/-! ## pooling.c -/

/-- Function `tabMax(tab, size)` of pooling.c. -/
def tabMax (tab : List α) (size : Nat) : α :=
  forLoop size (fun i max => if rd tab i > max then rd tab i else max) (rd tab 0)

/-- Function `poolingForward(input, width, height, numFilters)` of pooling.c. -/
def poolingForward (input : List (List α)) (width height numFilters : Nat) : List α :=
  let output : List (List α) := mallocPtr (width * height)
  let output := forLoop (width * height) (fun i output =>
    let output := wr output i (malloc numFilters)
    forLoop numFilters (fun k output =>
      let cell : List α := malloc 4
      let cell := wr cell 0 (rd2 input (2 * i) k)
      let cell := wr cell 1 (rd2 input (2 * i + 1) k)
      let cell := wr cell 2 (rd2 input (2 * i + width) k)
      let cell := wr cell 3 (rd2 input (2 * i + width + 1) k)
      wr2 output i k (tabMax cell 4)) output) output
  let flatOutput : List α := malloc (width * height * numFilters)
  forLoop numFilters (fun i flatOutput =>
    forLoop (width * height) (fun j flatOutput =>
      wr flatOutput (i * width * height + j) (rd2 output j i)) flatOutput) flatOutput

/-! ## dense.c -/

/-- Function `denseForward(denseLayer, input, width, height, numFilters)` of dense.c. -/
def denseForward (denseLayer : DenseLayer α) (input : List α)
    (width height numFilters : Nat) : List α :=
  let output : List α := malloc denseLayer.size
  forLoop denseLayer.size (fun i output =>
    let output := wr output i 0
    let output := forLoop (width * height * numFilters) (fun j output =>
      wr output i (rd output i + rd input j * rd2 denseLayer.weights i j)) output
    wr output i (rd output i + rd denseLayer.biases i)) output

/-! ## backprop.c -/

/-- Function `dL_dprobs(probs, size, label)` of backprop.c. -/
def dL_dprobs (probs : List α) (size label : Nat) : List α :=
  let grad : List α := malloc size
  wr grad label (-1 / rd probs label)

/-- Function `drightProb_dtotals(totals, size, label)` of backprop.c. -/
def drightProb_dtotals (exp : α → α) (totals : List α) (size label : Nat) : List α :=
  let grad : List α := malloc size
  let sum : α := forLoop size (fun i sum => sum + exp (rd totals i)) 0
  forLoop size (fun i grad =>
    if i = label then
      wr grad i (exp (rd totals i) * (sum - exp (rd totals i)) / (sum * sum))
    else
      wr grad i (-exp (rd totals label) * exp (rd totals i) / (sum * sum))) grad

/-- Function `dtotals_dweights(input, size, width, height, numFilters)` of backprop.c. -/
def dtotals_dweights (input : List α) (size width height numFilters : Nat) : List (List α) :=
  let grad : List (List α) := mallocPtr size
  forLoop size (fun i grad =>
    let grad := wr grad i (malloc (width * height * numFilters))
    forLoop (width * height * numFilters) (fun j grad => wr2 grad i j (rd input j)) grad) grad

/-- Function `dtotals_dbiases(size)` of backprop.c. -/
def dtotals_dbiases (size : Nat) : List α :=
  let grad : List α := malloc size
  forLoop size (fun i grad => wr grad i 1) grad

/-- Function `dtotals_dpooled(denseLayer, size, width, height, numFilters)` of backprop.c. -/
def dtotals_dpooled (denseLayer : DenseLayer α) (size width height numFilters : Nat) :
    List (List α) :=
  let grad : List (List α) := mallocPtr size
  forLoop size (fun i grad =>
    let grad := wr grad i (malloc (width * height * numFilters))
    forLoop (width * height * numFilters) (fun j grad =>
      wr2 grad i j (rd2 denseLayer.weights i j)) grad) grad

/-- Function `dL_dtotals(dL_dp, dp_dtot, size, label)` of backprop.c. -/
def dL_dtotals (dL_dp dp_dtot : List α) (size label : Nat) : List α :=
  let grad : List α := malloc size
  forLoop size (fun i grad => wr grad i (rd dL_dp label * rd dp_dtot i)) grad

/-- Function `dL_dweights(dL_dtot, dtot_dw, size, width, height, numFilters)` of backprop.c. -/
def dL_dweights (dL_dtot : List α) (dtot_dw : List (List α))
    (size width height numFilters : Nat) : List (List α) :=
  let grad : List (List α) := mallocPtr size
  forLoop size (fun i grad =>
    let grad := wr grad i (malloc (width * height * numFilters))
    forLoop (width * height * numFilters) (fun j grad =>
      wr2 grad i j (rd dL_dtot i * rd2 dtot_dw i j)) grad) grad

/-- Function `dL_dbiases(dL_dtot, dtot_db, size)` of backprop.c. -/
def dL_dbiases (dL_dtot dtot_db : List α) (size : Nat) : List α :=
  let grad : List α := malloc size
  forLoop size (fun i grad => wr grad i (rd dL_dtot i * rd dtot_db i)) grad

/-- Function `dL_dpooled(dL_dtot, dtot_dpooled, size, width, height, numFilters)` of backprop.c. -/
def dL_dpooled (dL_dtot : List α) (dtot_dpooled : List (List α))
    (size width height numFilters : Nat) : List α :=
  let grad : List α := malloc (width * height * numFilters)
  forLoop size (fun i grad =>
    forLoop (width * height * numFilters) (fun j grad =>
      wr grad j (rd grad j + rd dL_dtot i * rd2 dtot_dpooled i j)) grad) grad

/-- The in-place SGD update loop of `denseBackprop` (backprop.c lines 158-163). -/
def denseUpdate (denseLayer : DenseLayer α) (dL_dw : List (List α)) (dL_db : List α)
    (width height numFilters : Nat) (learningRate : α) : DenseLayer α :=
  forLoop denseLayer.size (fun i denseLayer =>
    let denseLayer := forLoop (width * height * numFilters) (fun j denseLayer =>
      { denseLayer with
        weights := wr2 denseLayer.weights i j
          (rd2 denseLayer.weights i j - learningRate * rd2 dL_dw i j) }) denseLayer
    { denseLayer with
      biases := wr denseLayer.biases i (rd denseLayer.biases i - learningRate * rd dL_db i) })
    denseLayer

/-- Function `denseBackprop` of backprop.c: returns the updated layer and `dL_din`. -/
def denseBackprop (exp : α → α) (denseLayer : DenseLayer α) (probs totals pooledImage : List α)
    (width height numFilters label : Nat) (learningRate : α) : DenseLayer α × List α :=
  let dL_dp := dL_dprobs probs denseLayer.size label
  let dp_dtot := drightProb_dtotals exp totals denseLayer.size label
  let dL_tot := dL_dtotals dL_dp dp_dtot denseLayer.size label
  let dtot_dw := dtotals_dweights pooledImage denseLayer.size width height numFilters
  let dtot_db : List α := dtotals_dbiases denseLayer.size
  let dL_dw := dL_dweights dL_tot dtot_dw denseLayer.size width height numFilters
  let dL_db := dL_dbiases dL_tot dtot_db denseLayer.size
  let dtot_din := dtotals_dpooled denseLayer denseLayer.size width height numFilters
  let dL_din := dL_dpooled dL_tot dtot_din denseLayer.size width height numFilters
  (denseUpdate denseLayer dL_dw dL_db width height numFilters learningRate, dL_din)

/-- Function `dL_dconvoluted` of backprop.c. -/
def dL_dconvoluted (dL_dpooled : List α) (convolutedImage : List (List α))
    (pooledImage : List α) (width height numFilters : Nat) : List (List α) :=
  let grad : List (List α) := mallocPtr (width * height)
  forLoop width (fun i grad =>
    forLoop height (fun j grad =>
      let grad := wr grad (j * width + i) (malloc numFilters)
      forLoop numFilters (fun k grad =>
        if rd2 convolutedImage (j * width + i) k
            = rd pooledImage (k * (width / 2 * height / 2) + (j / 2 * width / 2 + i / 2)) then
          wr2 grad (j * width + i) k
            (rd dL_dpooled (k * (width / 2 * height / 2) + (j / 2 * width / 2 + i / 2)))
        else
          wr2 grad (j * width + i) k 0) grad) grad) grad

/-- Function `dL_dfilters(convLayer, image, dL_dconv, width, height)` of backprop.c. -/
def dL_dfilters (convLayer : ConvLayer α) (image dL_dconv : List (List α))
    (width height : Nat) : List (List (List α)) :=
  let grad : List (List (List α)) := List.replicate convLayer.numFilters []
  forLoop convLayer.numFilters (fun k grad =>
    let grad := wr grad k (mallocPtr convLayer.filterSize)
    forLoop convLayer.filterSize (fun x grad =>
      let grad := wr2 grad k x (malloc convLayer.filterSize)
      forLoop convLayer.filterSize (fun y grad =>
        forLoop height (fun i grad =>
          forLoop width (fun j grad =>
            wr3 grad k x y
              (rd3 grad k x y + rd2 dL_dconv (i * width + j) k * rd2 image (j + x) (i + y)))
            grad) grad) grad) grad) grad

/-- The in-place filter update loop of `convolutionBackprop` (backprop.c lines 238-244);
`learningRate` is the `int` parameter of `convolutionBackprop`. -/
def convUpdate (convLayer : ConvLayer α) (dL_df : List (List (List α)))
    (learningRate : Int) : ConvLayer α :=
  forLoop convLayer.numFilters (fun k convLayer =>
    forLoop convLayer.filterSize (fun x convLayer =>
      forLoop convLayer.filterSize (fun y convLayer =>
        { convLayer with
          filters := wr3 convLayer.filters k x y
            (rd3 convLayer.filters k x y - (learningRate : α) * rd3 dL_df k x y) })
        convLayer) convLayer) convLayer

/-- Function `convolutionBackprop` of backprop.c (parameter `int learningRate`). -/
def convolutionBackprop (convLayer : ConvLayer α) (image convolutedImage : List (List α))
    (pooledImage dL_dpooled : List α) (width height : Nat) (learningRate : Int) : ConvLayer α :=
  let dL_dconv := dL_dconvoluted dL_dpooled convolutedImage pooledImage width height
    convLayer.numFilters
  let dL_df := dL_dfilters convLayer image dL_dconv width height
  convUpdate convLayer dL_df learningRate

/-- Function `backpropagation` of backprop.c: returns the two updated layers and `probs`.
The `double learningRate` is converted to `int` at the call of `convolutionBackprop`. -/
def backpropagation [FloorRing α] (exp : α → α) (convLayer : ConvLayer α)
    (denseLayer : DenseLayer α) (image : List (List α))
    (width height divisor label : Nat) (learningRate : α) :
    ConvLayer α × DenseLayer α × List α :=
  let convolutedImage := convolutionForward convLayer image width height divisor
  let pooledImage := poolingForward convolutedImage ((width - (divisor - 1)) / 2)
    ((height - (divisor - 1)) / 2) convLayer.numFilters
  let totals := denseForward denseLayer pooledImage ((width - (divisor - 1)) / 2)
    ((height - (divisor - 1)) / 2) convLayer.numFilters
  let probs := softmax exp totals denseLayer.size
  let r := denseBackprop exp denseLayer probs totals pooledImage ((width - (divisor - 1)) / 2)
    ((height - (divisor - 1)) / 2) convLayer.numFilters label learningRate
  let convLayer := convolutionBackprop convLayer image convolutedImage pooledImage r.2
    (width - (divisor - 1)) (height - (divisor - 1)) (doubleToInt learningRate)
  (convLayer, r.1, probs)

end Engine

/-- The local `dL_df` of `convolutionBackprop`: the filter gradient it multiplies by the rate. -/
def convolutionBackprop_dL_df {α : Type} [LinearOrderedField α] (convLayer : ConvLayer α)
    (image convolutedImage : List (List α)) (pooledImage dL_dpooled : List α)
    (width height : Nat) : List (List (List α)) :=
  let dL_dconv := dL_dconvoluted dL_dpooled convolutedImage pooledImage width height
    convLayer.numFilters
  dL_dfilters convLayer image dL_dconv width height

/-- The filter gradient `dL_df` computed inside one call of `backpropagation`. -/
def backpropagation_dL_df {α : Type} [LinearOrderedField α] (exp : α → α)
    (convLayer : ConvLayer α) (denseLayer : DenseLayer α) (image : List (List α))
    (width height divisor label : Nat) (learningRate : α) : List (List (List α)) :=
  let convolutedImage := convolutionForward convLayer image width height divisor
  let pooledImage := poolingForward convolutedImage ((width - (divisor - 1)) / 2)
    ((height - (divisor - 1)) / 2) convLayer.numFilters
  let totals := denseForward denseLayer pooledImage ((width - (divisor - 1)) / 2)
    ((height - (divisor - 1)) / 2) convLayer.numFilters
  let probs := softmax exp totals denseLayer.size
  let r := denseBackprop exp denseLayer probs totals pooledImage ((width - (divisor - 1)) / 2)
    ((height - (divisor - 1)) / 2) convLayer.numFilters label learningRate
  convolutionBackprop_dL_df convLayer image convolutedImage pooledImage r.2
    (width - (divisor - 1)) (height - (divisor - 1))

/-! ## output.c: accuracy; main.c: forward -/

/-- Function `accuracy(probs, label, size)` of output.c; the `int label` may be any integer. -/
def accuracy {α : Type} [LinearOrderedField α] (probs : List α) (label : Int) (size : Nat) :
    Nat :=
  let r : α × Nat := forLoop size
    (fun i (s : α × Nat) => if rd probs i > s.1 then (rd probs i, i) else s) (rd probs 0, 0)
  if (r.2 : Int) = label then 1 else 0

/-- Function `forward(convLayer, denseLayer, image, width, height, divisor)` of main.c. -/
def forward {α : Type} [LinearOrderedField α] (exp : α → α) (convLayer : ConvLayer α)
    (denseLayer : DenseLayer α) (image : List (List α)) (width height divisor : Nat) : List α :=
  let convolutedImage := convolutionForward convLayer image width height divisor
  let pooledImage := poolingForward convolutedImage ((width - (divisor - 1)) / 2)
    ((height - (divisor - 1)) / 2) convLayer.numFilters
  let totals := denseForward denseLayer pooledImage ((width - (divisor - 1)) / 2)
    ((height - (divisor - 1)) / 2) convLayer.numFilters
  let probs := softmax exp totals denseLayer.size
  probs

/-! ## Gaussian initialisation (`convBoxMuller`, `initConvLayer`, `denseBoxMuller`,
`initDenseLayer`)

`rand`, `srand` and `RAND_MAX` belong to the C library, not to the repository: they are a
parameter, a deterministic generator with a state of type `G`.  `sqrt` and `log` are parameters
as well.  The rejection loop of the samplers has no bound in C; here it runs for at most `fuel`
rounds and the functions return `none` when the fuel does not suffice. -/

/-- The C library generator: state after `srand(seed)`, and `rand()` as value and next state. -/
structure Libc (G : Type) where
  RAND_MAX : Nat
  srand : Nat → G
  rand : G → Nat × G

/-- The sample implementation of `rand`/`srand` given in the C standard (32-bit state). -/
def stdLibc : Libc Nat where
  RAND_MAX := 32767
  srand := fun seed => seed % 4294967296
  rand := fun next =>
    ((((next * 1103515245 + 12345) % 4294967296) / 65536) % 32768,
      (next * 1103515245 + 12345) % 4294967296)

/-- The static variables `hasSpare` and `spare` of a Box-Muller sampler. -/
structure BoxMullerState (α : Type) where
  hasSpare : Bool
  spare : α

/-- A `for` loop whose body may fail to return. -/
def forLoopM {σ : Type} (n : Nat) (body : Nat → σ → Option σ) (s : σ) : Option σ :=
  match n with
  | 0 => some s
  | k + 1 => (forLoopM k body s).bind (body k)

section Init

variable {α : Type} [LinearOrderedField α] {G : Type}

/-- The loop `do { u = …; v = …; s = u*u + v*v; } while (s >= 1.0 || s == 0.0)` of
`convBoxMuller` and `denseBoxMuller`, for at most `fuel` rounds: returns `u`, `v`, `s` and the
generator state. -/
def boxMullerLoop (libc : Libc G) (fuel : Nat) (g : G) : Option (α × α × α × G) :=
  match fuel with
  | 0 => none
  | fuel + 1 =>
    let r1 := libc.rand g
    let u : α := ((r1.1 : α) / (libc.RAND_MAX : α)) * 2 - 1
    let r2 := libc.rand r1.2
    let v : α := ((r2.1 : α) / (libc.RAND_MAX : α)) * 2 - 1
    let s : α := u * u + v * v
    if s ≥ 1 ∨ s = 0 then boxMullerLoop libc fuel r2.2 else some (u, v, s, r2.2)

/-- Function `convBoxMuller()` of convolution.c: returns the sample, the new statics and the
new generator state. -/
def convBoxMuller (libc : Libc G) (sqrt log : α → α) (fuel : Nat)
    (st : BoxMullerState α) (g : G) : Option (α × BoxMullerState α × G) :=
  if st.hasSpare then
    some (st.spare, { st with hasSpare := false }, g)
  else
    (boxMullerLoop libc fuel g).map (fun r =>
      let s : α := sqrt (-2 * log r.2.2.1 / r.2.2.1)
      (r.1 * s, { hasSpare := true, spare := r.2.1 * s }, r.2.2.2))

/-- Function `denseBoxMuller()` of dense.c (same body, its own statics). -/
def denseBoxMuller (libc : Libc G) (sqrt log : α → α) (fuel : Nat)
    (st : BoxMullerState α) (g : G) : Option (α × BoxMullerState α × G) :=
  if st.hasSpare then
    some (st.spare, { st with hasSpare := false }, g)
  else
    (boxMullerLoop libc fuel g).map (fun r =>
      let s : α := sqrt (-2 * log r.2.2.1 / r.2.2.1)
      (r.1 * s, { hasSpare := true, spare := r.2.1 * s }, r.2.2.2))

/-- Function `initConvLayer(numFilters, filterSize)` of convolution.c, from the statics `st` of
`convBoxMuller` and the generator state `g`. -/
def initConvLayer (libc : Libc G) (sqrt log : α → α) (fuel : Nat)
    (numFilters filterSize : Nat) (st : BoxMullerState α) (g : G) :
    Option (ConvLayer α × BoxMullerState α × G) :=
  let filters : List (List (List α)) := List.replicate numFilters []
  (forLoopM numFilters (fun i (s : List (List (List α)) × BoxMullerState α × G) =>
    forLoopM filterSize (fun j (s : List (List (List α)) × BoxMullerState α × G) =>
      forLoopM filterSize (fun k (s : List (List (List α)) × BoxMullerState α × G) =>
        (convBoxMuller libc sqrt log fuel s.2.1 s.2.2).map (fun r =>
          let heInit : α := r.1 * sqrt (2 / ((filterSize : α) * (filterSize : α)))
          (wr3 s.1 i j k heInit, r.2.1, r.2.2)))
        (wr2 s.1 i j (malloc filterSize), s.2.1, s.2.2))
      (wr s.1 i (mallocPtr filterSize), s.2.1, s.2.2))
    (filters, st, g)).map (fun s =>
      ({ numFilters := numFilters, filterSize := filterSize, filters := s.1 }, s.2.1, s.2.2))

/-- Function `initDenseLayer(size, width, height, numFilters)` of dense.c, from the statics
`st` of `denseBoxMuller` and the generator state `g`. -/
def initDenseLayer (libc : Libc G) (sqrt log : α → α) (fuel : Nat)
    (size width height numFilters : Nat) (st : BoxMullerState α) (g : G) :
    Option (DenseLayer α × BoxMullerState α × G) :=
  let biases : List α := malloc size
  let weights : List (List α) := mallocPtr size
  (forLoopM size (fun i (s : List (List α) × BoxMullerState α × G) =>
    forLoopM (width * height * numFilters)
      (fun j (s : List (List α) × BoxMullerState α × G) =>
        (denseBoxMuller libc sqrt log fuel s.2.1 s.2.2).map (fun r =>
          let heInit : α :=
            r.1 * sqrt (2 / ((width : α) * (height : α) * (numFilters : α)))
          (wr2 s.1 i j heInit, r.2.1, r.2.2)))
      (wr s.1 i (malloc (width * height * numFilters)), s.2.1, s.2.2))
    (weights, st, g)).map (fun s =>
      ({ size := size, biases := biases, weights := s.1 }, s.2.1, s.2.2))

end Init

/-- Dense layers reachable from `initDenseLayer` by training steps (`backpropagation` with a
label below `size`, any convolution layer, image, dimensions and rate). -/
inductive DenseReachable {α : Type} [LinearOrderedField α] [FloorRing α] {G : Type}
    (exp : α → α) (libc : Libc G) (sqrt log : α → α) : DenseLayer α → Prop
  | init (fuel size width height numFilters : Nat) (st st' : BoxMullerState α) (g g' : G)
      (denseLayer : DenseLayer α) :
      initDenseLayer libc sqrt log fuel size width height numFilters st g
        = some (denseLayer, st', g') →
      DenseReachable exp libc sqrt log denseLayer
  | step (convLayer : ConvLayer α) (denseLayer : DenseLayer α) (image : List (List α))
      (width height divisor label : Nat) (learningRate : α) :
      DenseReachable exp libc sqrt log denseLayer → label < denseLayer.size →
      DenseReachable exp libc sqrt log
        (backpropagation exp convLayer denseLayer image width height divisor label
          learningRate).2.1

/-- Two static states that a Box-Muller sampler cannot tell apart: the same flag and, when the
flag is set, the same cached value. -/
def BoxMullerState.same {α : Type} (st st' : BoxMullerState α) : Prop :=
  st.hasSpare = st'.hasSpare ∧ (st.hasSpare = true → st.spare = st'.spare)

/-! ## import.c -/

/-- Function `swapEndian(val)` of import.c on `uint32_t`: a shift to the left is taken modulo
`2^32`. -/
def swapEndian (val : Nat) : Nat :=
  let val := (((val <<< 8) % 4294967296) &&& 0xFF00FF00) ||| ((val >>> 8) &&& 0xFF00FF)
  ((val <<< 16) % 4294967296) ||| (val >>> 16)

/-- Function `readImage(f, width, height)` of import.c; `buffer` holds the `width * height`
bytes read from the file. -/
def readImage {α : Type} [LinearOrderedField α] (buffer : List Nat) (width height : Nat) :
    List (List α) :=
  let image : List (List α) := mallocPtr height
  forLoop height (fun i image =>
    let image := wr image i (malloc width)
    forLoop width (fun j image =>
      wr2 image i j (((rd buffer (j + i * width) : Nat) : α) / 255)) image) image

/-! ## Reads with bounds checks

The functions below repeat `convolutionGrid`, `convolutionForward` and `dL_dconvoluted` with
the reads in question returning `Option`: a read outside the array makes the function return
`none`. -/

/-- `convolutionGrid` with every read `image[i + k][j + l]` checked. -/
def convolutionGridChecked {α : Type} [LinearOrderedField α] (image : List (List α))
    (width height divisor : Nat) : Option (List (List α)) :=
  let grid : List (List α) := mallocPtr ((width - (divisor - 1)) * (height - (divisor - 1)))
  forLoopM (width - (divisor - 1)) (fun i grid =>
    forLoopM (height - (divisor - 1)) (fun j grid =>
      let cell : List α := malloc (divisor * divisor)
      (forLoopM divisor (fun k cell =>
        forLoopM divisor (fun l cell =>
          ((image[i + k]?).bind (fun row => row[j + l]?)).map (fun v =>
            wr cell (k * divisor + l) v)) cell) cell).map (fun cell =>
        wr grid (i * (height - (divisor - 1)) + j) cell)) grid) grid

/-- `convolutionForward` on the checked grid. -/
def convolutionForwardChecked {α : Type} [LinearOrderedField α] (convLayer : ConvLayer α)
    (image : List (List α)) (width height divisor : Nat) : Option (List (List α)) :=
  (convolutionGridChecked image width height divisor).map (fun grid =>
    let output : List (List α) := mallocPtr ((width - (divisor - 1)) * (height - (divisor - 1)))
    forLoop (width - (divisor - 1)) (fun i output =>
      forLoop (height - (divisor - 1)) (fun j output =>
        let output := wr output (i * (height - (divisor - 1)) + j) (malloc convLayer.numFilters)
        forLoop convLayer.numFilters (fun k output =>
          wr2 output (i * (height - (divisor - 1)) + j) k
            (convolution (convLayer.filters.getD k [])
              (grid.getD (i * (height - (divisor - 1)) + j) []))) output) output) output)

/-- The index into `pooledImage` and `dL_dpooled` that `dL_dconvoluted` computes, in C `int`
arithmetic (`*` and `/` from left to right). -/
def dL_dconvoluted_index (width height i j k : Nat) : Nat :=
  k * (width / 2 * height / 2) + (j / 2 * width / 2 + i / 2)

/-- `dL_dconvoluted` with the reads of `pooledImage` and `dL_dpooled` checked. -/
def dL_dconvolutedChecked {α : Type} [LinearOrderedField α] (dL_dpooled : List α)
    (convolutedImage : List (List α)) (pooledImage : List α)
    (width height numFilters : Nat) : Option (List (List α)) :=
  let grad : List (List α) := mallocPtr (width * height)
  forLoopM width (fun i grad =>
    forLoopM height (fun j grad =>
      let grad := wr grad (j * width + i) (malloc numFilters)
      forLoopM numFilters (fun k grad =>
        (pooledImage[dL_dconvoluted_index width height i j k]?).bind (fun pooled =>
          if rd2 convolutedImage (j * width + i) k = pooled then
            (dL_dpooled[dL_dconvoluted_index width height i j k]?).map (fun g =>
              wr2 grad (j * width + i) k g)
          else
            some (wr2 grad (j * width + i) k 0))) grad) grad) grad

/-! ## Loop and array lemmas -/

section Toolkit

theorem forLoop_zero {σ : Type} (body : Nat → σ → σ) (s : σ) : forLoop 0 body s = s := rfl

theorem forLoop_succ {σ : Type} (n : Nat) (body : Nat → σ → σ) (s : σ) :
    forLoop (n + 1) body s = body n (forLoop n body s) := rfl

/-- Loop invariant rule. -/
theorem forLoop_inv {σ : Type} (P : Nat → σ → Prop) (n : Nat) (body : Nat → σ → σ) (s : σ)
    (h0 : P 0 s) (hstep : ∀ i, i < n → ∀ t, P i t → P (i + 1) (body i t)) :
    P n (forLoop n body s) := by
  induction n with
  | zero => exact h0
  | succ k ih =>
    exact hstep k (Nat.lt_succ_self k) _
      (ih (fun i hi t ht => hstep i (Nat.lt_succ_of_lt hi) t ht))

/-- Two loops with bodies that agree below the bound are equal. -/
theorem forLoop_congr {σ : Type} (n : Nat) (b1 b2 : Nat → σ → σ) (s : σ)
    (h : ∀ i, i < n → ∀ t, b1 i t = b2 i t) : forLoop n b1 s = forLoop n b2 s := by
  induction n with
  | zero => rfl
  | succ k ih =>
    rw [forLoop_succ, forLoop_succ, ih (fun i hi t => h i (Nat.lt_succ_of_lt hi) t),
      h k (Nat.lt_succ_self k)]

/-- An accumulation loop `s += f i` computes a finite sum. -/
theorem forLoop_sum {α : Type} [AddCommMonoid α] (n : Nat) (f : Nat → α) (a : α) :
    forLoop n (fun i s => s + f i) a = a + ∑ i in Finset.range n, f i := by
  induction n with
  | zero => simp [forLoop]
  | succ k ih => rw [forLoop_succ, ih, Finset.sum_range_succ, add_assoc]

theorem length_wr {β : Type} (xs : List β) (i : Nat) (v : β) : (wr xs i v).length = xs.length := by
  simp [wr]

theorem getD_wr {β : Type} (xs : List β) (i j : Nat) (v d : β) :
    (wr xs i v).getD j d = if j = i ∧ i < xs.length then v else xs.getD j d := by
  unfold wr
  induction xs generalizing i j with
  | nil => simp
  | cons x xs ih =>
    cases i with
    | zero => cases j <;> simp
    | succ i =>
      cases j with
      | zero => simp
      | succ j => simpa using ih i j

theorem getD_wr_same {β : Type} (xs : List β) (i : Nat) (v d : β) (h : i < xs.length) :
    (wr xs i v).getD i d = v := by
  rw [getD_wr]; simp [h]

theorem getD_wr_ne {β : Type} (xs : List β) (i j : Nat) (v d : β) (h : j ≠ i) :
    (wr xs i v).getD j d = xs.getD j d := by
  rw [getD_wr]; simp [h]

theorem getD_replicate {β : Type} (n j : Nat) (v d : β) :
    (List.replicate n v).getD j d = if j < n then v else d := by
  induction n generalizing j with
  | zero => simp
  | succ n ih =>
    cases j with
    | zero => simp [List.replicate_succ]
    | succ j => simpa [List.replicate_succ] using ih j

theorem length_malloc {α : Type} [Zero α] (n : Nat) : (malloc n : List α).length = n := by
  simp [malloc]

theorem rd_malloc {α : Type} [Zero α] (n j : Nat) : rd (malloc n : List α) j = 0 := by
  simp [rd, malloc, getD_replicate]

theorem length_mallocPtr {β : Type} (n : Nat) : (mallocPtr n : List (List β)).length = n := by
  simp [mallocPtr]

theorem rd_wr {α : Type} [Zero α] (xs : List α) (i j : Nat) (v : α) :
    rd (wr xs i v) j = if j = i ∧ i < xs.length then v else rd xs j := getD_wr xs i j v 0

theorem getD_of_le {β : Type} (xs : List β) (j : Nat) (d : β) (h : xs.length ≤ j) :
    xs.getD j d = d := by
  induction xs generalizing j with
  | nil => simp
  | cons x xs ih =>
    cases j with
    | zero => simp at h
    | succ j => simpa using ih j (by simpa using h)

/-- Two lists of the same length with the same reads are equal. -/
theorem list_ext_getD {β : Type} (d : β) (xs ys : List β) (hlen : xs.length = ys.length)
    (h : ∀ j, j < xs.length → xs.getD j d = ys.getD j d) : xs = ys := by
  induction xs generalizing ys with
  | nil => cases ys with
    | nil => rfl
    | cons y ys => simp at hlen
  | cons x xs ih =>
    cases ys with
    | nil => simp at hlen
    | cons y ys =>
      have h0 := h 0 (by simp)
      simp at h0
      have := ih ys (by simpa using hlen) (fun j hj => by simpa using h (j + 1) (by simpa using hj))
      rw [h0, this]

/-- A loop whose `i`-th iteration replaces slot `i` by `h i` of its content and leaves the
other slots alone. -/
theorem forLoop_pointwise {β : Type} (d : β) (n : Nat) (body : Nat → List β → List β)
    (h : Nat → β → β) (s0 : List β)
    (hbody : ∀ i, i < n → ∀ s : List β, s.length = s0.length →
      (body i s).length = s0.length ∧ (body i s).getD i d = h i (s.getD i d) ∧
        ∀ j, j ≠ i → (body i s).getD j d = s.getD j d) :
    (forLoop n body s0).length = s0.length ∧
      ∀ j, (forLoop n body s0).getD j d
        = if j < n then h j (s0.getD j d) else s0.getD j d := by
  refine forLoop_inv
    (fun i s => s.length = s0.length ∧
      ∀ j, s.getD j d = if j < i then h j (s0.getD j d) else s0.getD j d)
    n body s0 ⟨rfl, fun j => by simp⟩ ?_
  intro i hi t ⟨hlen, hrd⟩
  obtain ⟨h1, h2, h3⟩ := hbody i hi t hlen
  refine ⟨h1, fun j => ?_⟩
  by_cases hji : j = i
  · subst hji
    rw [h2, hrd j, if_neg (Nat.lt_irrefl j), if_pos (Nat.lt_succ_self j)]
  · rw [h3 j hji, hrd j]
    have : (j < i + 1) ↔ (j < i) := by omega
    simp [this]

theorem getD_map_range {β : Type} (n j : Nat) (f : Nat → β) (d : β) (hj : j < n) :
    ((List.range n).map f).getD j d = f j := by
  simp [List.getD_eq_getElem?_getD, hj]

/-- Pointwise loop over a block of exactly `n` slots, as a table. -/
theorem forLoop_table {β : Type} (d : β) (n : Nat) (body : Nat → List β → List β)
    (h : Nat → β → β) (s0 : List β) (hlen : s0.length = n)
    (hbody : ∀ i, i < n → ∀ s : List β, s.length = n → body i s = wr s i (h i (s.getD i d))) :
    forLoop n body s0 = (List.range n).map (fun i => h i (s0.getD i d)) := by
  have hp := forLoop_pointwise d n body h s0
    (fun i hi s hs => by
      rw [hbody i hi s (hs.trans hlen)]
      exact ⟨by rw [length_wr, hs], getD_wr_same s i _ d (by omega),
        fun j hj => getD_wr_ne s i j _ d hj⟩)
  refine list_ext_getD d _ _ (by simp [hp.1, hlen]) (fun j hj => ?_)
  rw [hp.1, hlen] at hj
  rw [hp.2 j, if_pos hj, getD_map_range _ _ _ _ hj]

/-- A fill loop `xs[i] = g i` over a block of exactly `n` slots yields the table of `g`. -/
theorem forLoop_fill {β : Type} (d : β) (n : Nat) (g : Nat → β) (s0 : List β)
    (hlen : s0.length = n) :
    forLoop n (fun i s => wr s i (g i)) s0 = (List.range n).map g :=
  forLoop_table d n _ (fun i _ => g i) s0 hlen (fun _ _ _ _ => rfl)

theorem wr_wr {β : Type} (xs : List β) (i : Nat) (a b : β) : wr (wr xs i a) i b = wr xs i b := by
  simp [wr]

theorem wr2_eq {β : Type} (xs : List (List β)) (i j : Nat) (v : β) :
    wr2 xs i j v = wr xs i (wr (xs.getD i []) j v) := rfl

/-- A loop that only rewrites row `k` of its state is a loop on that row. -/
theorem forLoop_lift {β : Type} (d : β) (k n : Nat) (body : Nat → List β → List β)
    (b : Nat → β → β) (s : List β) (hk : k < s.length)
    (hbody : ∀ i, i < n → ∀ t : List β, t.length = s.length →
      body i t = wr t k (b i (t.getD k d))) :
    forLoop n body s = wr s k (forLoop n b (s.getD k d)) := by
  induction n with
  | zero =>
    simp only [forLoop_zero]
    refine list_ext_getD d _ _ (by rw [length_wr]) (fun j _ => ?_)
    rw [getD_wr]
    split_ifs with hj
    · rw [hj.1]
    · rfl
  | succ m ih =>
    rw [forLoop_succ, forLoop_succ, ih (fun i hi t ht => hbody i (Nat.lt_succ_of_lt hi) t ht),
      hbody m (Nat.lt_succ_self m) _ (length_wr _ _ _), wr_wr, getD_wr_same _ _ _ _ hk]

theorem rd2_table {α : Type} [Zero α] (n m i j : Nat) (g : Nat → Nat → α)
    (hi : i < n) (hj : j < m) :
    rd2 ((List.range n).map (fun i => (List.range m).map (g i))) i j = g i j := by
  unfold rd2 rd
  rw [getD_map_range _ _ _ _ hi, getD_map_range _ _ _ _ hj]

/-- The row-by-row fill `grad[i] = malloc(m); grad[i][j] = g i j`. -/
theorem forLoop_fill2 {α : Type} [Zero α] (n m : Nat) (g : Nat → Nat → α) (s0 : List (List α))
    (hlen : s0.length = n) :
    forLoop n (fun i grad =>
        forLoop m (fun j grad => wr2 grad i j (g i j)) (wr grad i (malloc m))) s0
      = (List.range n).map (fun i => (List.range m).map (g i)) := by
  refine forLoop_table [] n _ (fun i _ => (List.range m).map (g i)) s0 hlen ?_
  intro i hi s hs
  rw [forLoop_lift [] i m (fun j grad => wr2 grad i j (g i j)) (fun j r => wr r j (g i j))
    (wr s i (malloc m))
    (by rw [length_wr]; omega) (fun j _ t _ => rfl)]
  rw [getD_wr_same _ _ _ _ (by omega), wr_wr, forLoop_fill 0 m _ _ (length_malloc m)]

end Toolkit

/-! ## softmax -/

section SoftmaxLemmas

variable {α : Type} [LinearOrderedField α]

theorem sum_map_range {β : Type} [AddCommMonoid β] (n : Nat) (f : Nat → β) :
    ((List.range n).map f).sum = ∑ i in Finset.range n, f i := by
  induction n with
  | zero => simp
  | succ k ih => rw [List.sum_range_succ, ih, Finset.sum_range_succ]

theorem softmax_eq_map (exp : α → α) (input : List α) (size : Nat) :
    softmax exp input size
      = (List.range size).map
          (fun i => exp (rd input i) / ∑ j in Finset.range size, exp (rd input j)) := by
  unfold softmax
  simp only [forLoop_sum, zero_add]
  exact forLoop_fill 0 size _ _ (length_malloc size)

theorem rd_softmax (exp : α → α) (input : List α) (size i : Nat) (hi : i < size) :
    rd (softmax exp input size) i
      = exp (rd input i) / ∑ j in Finset.range size, exp (rd input j) := by
  rw [softmax_eq_map]; exact getD_map_range size i _ 0 hi

theorem length_softmax (exp : α → α) (input : List α) (size : Nat) :
    (softmax exp input size).length = size := by
  rw [softmax_eq_map]; simp

end SoftmaxLemmas


/-! ## Fused softmax / cross-entropy gradient -/

section FusedLemmas

variable {α : Type} [LinearOrderedField α]

theorem drightProb_dtotals_eq_map (exp : α → α) (totals : List α) (size label : Nat) :
    drightProb_dtotals exp totals size label
      = (List.range size).map (fun i =>
          if i = label then
            exp (rd totals i) * ((∑ j in Finset.range size, exp (rd totals j)) - exp (rd totals i))
              / ((∑ j in Finset.range size, exp (rd totals j))
                  * (∑ j in Finset.range size, exp (rd totals j)))
          else
            -exp (rd totals label) * exp (rd totals i)
              / ((∑ j in Finset.range size, exp (rd totals j))
                  * (∑ j in Finset.range size, exp (rd totals j)))) := by
  unfold drightProb_dtotals
  simp only [forLoop_sum, zero_add]
  rw [← forLoop_fill 0 size _ (malloc size) (length_malloc size)]
  apply forLoop_congr
  intro i _ t
  split_ifs <;> rfl

theorem dL_dtotals_eq_map (dL_dp dp_dtot : List α) (size label : Nat) :
    dL_dtotals dL_dp dp_dtot size label
      = (List.range size).map (fun i => rd dL_dp label * rd dp_dtot i) :=
  forLoop_fill 0 size _ _ (length_malloc size)

theorem rd_dL_dprobs (probs : List α) (size label : Nat) (h : label < size) :
    rd (dL_dprobs probs size label) label = -1 / rd probs label := by
  unfold dL_dprobs
  rw [rd_wr]; simp [length_malloc, h]

/-- The gradient `dL_tot` that `denseBackprop` builds from `probs` and `totals`. -/
theorem rd_fused (exp : α → α) (probs totals : List α) (size label i : Nat)
    (hl : label < size) (hi : i < size) :
    rd (dL_dtotals (dL_dprobs probs size label) (drightProb_dtotals exp totals size label)
        size label) i
      = (-1 / rd probs label) *
          (if i = label then
            exp (rd totals i) * ((∑ j in Finset.range size, exp (rd totals j)) - exp (rd totals i))
              / ((∑ j in Finset.range size, exp (rd totals j))
                  * (∑ j in Finset.range size, exp (rd totals j)))
          else
            -exp (rd totals label) * exp (rd totals i)
              / ((∑ j in Finset.range size, exp (rd totals j))
                  * (∑ j in Finset.range size, exp (rd totals j)))) := by
  rw [dL_dtotals_eq_map]
  unfold rd
  rw [getD_map_range _ _ _ _ hi]
  change rd _ _ * rd _ _ = _
  rw [rd_dL_dprobs _ _ _ hl, drightProb_dtotals_eq_map]
  unfold rd
  rw [getD_map_range _ _ _ _ hi]

theorem length_fused (exp : α → α) (probs totals : List α) (size label : Nat) :
    (dL_dtotals (dL_dprobs probs size label) (drightProb_dtotals exp totals size label)
        size label).length = size := by
  rw [dL_dtotals_eq_map]; simp

/-- With `probs = softmax(totals)` and an everywhere positive `exp`, the fused gradient is
`probs[i] - 1` at the label and `probs[i]` elsewhere. -/
theorem rd_fused_softmax (exp : α → α) (hexp : ∀ x, 0 < exp x) (totals : List α)
    (size label i : Nat) (hl : label < size) (hi : i < size) :
    rd (dL_dtotals (dL_dprobs (softmax exp totals size) size label)
        (drightProb_dtotals exp totals size label) size label) i
      = if i = label then rd (softmax exp totals size) i - 1
        else rd (softmax exp totals size) i := by
  have hS : 0 < ∑ j in Finset.range size, exp (rd totals j) :=
    Finset.sum_pos (fun j _ => hexp _) ⟨0, Finset.mem_range.mpr (by omega)⟩
  have hS0 := ne_of_gt hS
  have hl0 := ne_of_gt (hexp (rd totals label))
  rw [rd_fused exp _ _ _ _ _ hl hi, rd_softmax _ _ _ _ hl, rd_softmax _ _ _ _ hi]
  split_ifs with h
  · subst h
    field_simp
    ring
  · field_simp
    ring

end FusedLemmas

section RealLoss

/-- Sum of exponentials after overwriting slot `i` of the logits. -/
theorem sum_exp_wr (z : List ℝ) (i : Nat) (t : ℝ) (hi : i < z.length) :
    ∑ j in Finset.range z.length, Real.exp (rd (wr z i t) j)
      = Real.exp t + ∑ j in (Finset.range z.length).erase i, Real.exp (rd z j) := by
  rw [← Finset.add_sum_erase _ _ (Finset.mem_range.mpr hi)]
  congr 1
  · rw [rd_wr]; simp [hi]
  · apply Finset.sum_congr rfl
    intro j hj
    rw [rd_wr, if_neg]
    intro h
    exact (Finset.ne_of_mem_erase hj) h.1

/-- Cross-entropy of a softmax output, as log-sum-exp minus the label logit. -/
theorem loss_softmax (z : List ℝ) (size label : Nat) (hl : label < size) :
    loss Real.log (softmax Real.exp z size) label
      = Real.log (∑ j in Finset.range size, Real.exp (rd z j)) - rd z label := by
  have hS : 0 < ∑ j in Finset.range size, Real.exp (rd z j) :=
    Finset.sum_pos (fun j _ => Real.exp_pos _) ⟨0, Finset.mem_range.mpr (by omega)⟩
  unfold loss
  rw [rd_softmax _ _ _ _ hl, Real.log_div (ne_of_gt (Real.exp_pos _)) (ne_of_gt hS),
    Real.log_exp]
  ring

/-- Derivative of the cross-entropy of the softmax in one logit. -/
theorem hasDerivAt_loss_logit (z : List ℝ) (label i : Nat) (hl : label < z.length)
    (hi : i < z.length) :
    HasDerivAt (fun t => loss Real.log (softmax Real.exp (wr z i t) z.length) label)
      (if i = label then rd (softmax Real.exp z z.length) i - 1
        else rd (softmax Real.exp z z.length) i) (rd z i) := by
  set C : ℝ := ∑ j in (Finset.range z.length).erase i, Real.exp (rd z j) with hC
  have hC0 : 0 ≤ C := Finset.sum_nonneg (fun j _ => le_of_lt (Real.exp_pos _))
  have hfun : (fun t => loss Real.log (softmax Real.exp (wr z i t) z.length) label)
      = fun t => Real.log (Real.exp t + C) - (if i = label then t else rd z label) := by
    funext t
    have := loss_softmax (wr z i t) z.length label hl
    rw [this]
    have h2 := sum_exp_wr z i t hi
    rw [h2, rd_wr]
    by_cases h : i = label
    · subst h; rw [if_pos ⟨rfl, hi⟩, if_pos rfl]
    · rw [if_neg (fun hh => h hh.1.symm), if_neg h]
  have hS : ∑ j in Finset.range z.length, Real.exp (rd z j) = Real.exp (rd z i) + C := by
    rw [hC]
    exact (Finset.add_sum_erase _ (fun j => Real.exp (rd z j)) (Finset.mem_range.mpr hi)).symm
  have hpos : 0 < Real.exp (rd z i) + C := add_pos_of_pos_of_nonneg (Real.exp_pos _) hC0
  have hlog : HasDerivAt (fun t => Real.log (Real.exp t + C))
      (Real.exp (rd z i) / (Real.exp (rd z i) + C)) (rd z i) :=
    ((Real.hasDerivAt_exp (rd z i)).add_const C).log (ne_of_gt hpos)
  rw [hfun, rd_softmax _ _ _ _ hi, hS]
  by_cases h : i = label
  · simp only [h, if_true]
    have := hlog.sub (hasDerivAt_id (rd z i))
    rw [h] at this
    exact this
  · simp only [h, if_false]
    have := hlog.sub (hasDerivAt_const (rd z i) (rd z label))
    simpa using this

end RealLoss

/-! ## Dense layer -/

section DenseLemmas

variable {α : Type} [LinearOrderedField α]

theorem dtotals_dweights_eq (input : List α) (size width height numFilters : Nat) :
    dtotals_dweights input size width height numFilters
      = (List.range size).map (fun _ =>
          (List.range (width * height * numFilters)).map (fun j => rd input j)) :=
  forLoop_fill2 size _ (fun _ j => rd input j) _ (length_mallocPtr size)

theorem dtotals_dpooled_eq (denseLayer : DenseLayer α) (size width height numFilters : Nat) :
    dtotals_dpooled denseLayer size width height numFilters
      = (List.range size).map (fun i =>
          (List.range (width * height * numFilters)).map (fun j => rd2 denseLayer.weights i j)) :=
  forLoop_fill2 size _ (fun i j => rd2 denseLayer.weights i j) _ (length_mallocPtr size)

theorem dL_dweights_eq (dL_dtot : List α) (dtot_dw : List (List α))
    (size width height numFilters : Nat) :
    dL_dweights dL_dtot dtot_dw size width height numFilters
      = (List.range size).map (fun i =>
          (List.range (width * height * numFilters)).map
            (fun j => rd dL_dtot i * rd2 dtot_dw i j)) :=
  forLoop_fill2 size _ (fun i j => rd dL_dtot i * rd2 dtot_dw i j) _ (length_mallocPtr size)

theorem dtotals_dbiases_eq (size : Nat) :
    (dtotals_dbiases size : List α) = (List.range size).map (fun _ => 1) :=
  forLoop_fill 0 size _ _ (length_malloc size)

theorem dL_dbiases_eq (dL_dtot dtot_db : List α) (size : Nat) :
    dL_dbiases dL_dtot dtot_db size
      = (List.range size).map (fun i => rd dL_dtot i * rd dtot_db i) :=
  forLoop_fill 0 size _ _ (length_malloc size)

/-- The accumulation `grad[j] += dL_dtot[i] * dtot_dpooled[i][j]` over all `i`, `j`. -/
theorem dL_dpooled_eq (dL_dtot : List α) (dtot_dpooled : List (List α))
    (size width height numFilters : Nat) :
    dL_dpooled dL_dtot dtot_dpooled size width height numFilters
      = (List.range (width * height * numFilters)).map (fun j =>
          ∑ i in Finset.range size, rd dL_dtot i * rd2 dtot_dpooled i j) := by
  unfold dL_dpooled
  induction size with
  | zero =>
    simp only [forLoop_zero, Finset.range_zero, Finset.sum_empty]
    refine list_ext_getD 0 _ _ (by simp [malloc]) (fun j hj => ?_)
    rw [length_malloc] at hj
    rw [getD_map_range _ _ _ _ hj]
    exact rd_malloc _ _
  | succ n ih =>
    rw [forLoop_succ, ih]
    rw [forLoop_table 0 (width * height * numFilters)
      (fun j grad => wr grad j (rd grad j + rd dL_dtot n * rd2 dtot_dpooled n j))
      (fun j v => v + rd dL_dtot n * rd2 dtot_dpooled n j) _ (by simp)
      (fun j _ s _ => rfl)]
    refine list_ext_getD 0 _ _ (by simp) (fun j hj => ?_)
    simp only [List.length_map, List.length_range] at hj
    rw [getD_map_range _ _ _ _ hj, getD_map_range _ _ _ _ hj, getD_map_range _ _ _ _ hj,
      Finset.sum_range_succ]

/-- The inner `j` loop of the SGD update touches the weights only. -/
theorem denseUpdate_inner (denseLayer : DenseLayer α) (dL_dw : List (List α))
    (learningRate : α) (i m : Nat) :
    forLoop m (fun j (denseLayer : DenseLayer α) =>
        { denseLayer with
          weights := wr2 denseLayer.weights i j
            (rd2 denseLayer.weights i j - learningRate * rd2 dL_dw i j) }) denseLayer
      = { denseLayer with
          weights := forLoop m (fun j W => wr2 W i j (rd2 W i j - learningRate * rd2 dL_dw i j))
            denseLayer.weights } := by
  induction m with
  | zero => rfl
  | succ k ih => rw [forLoop_succ, ih, forLoop_succ]

/-- The outer loop of the SGD update, split into its weight part and its bias part. -/
theorem denseUpdate_outer (denseLayer : DenseLayer α) (dL_dw : List (List α)) (dL_db : List α)
    (m : Nat) (learningRate : α) (n : Nat) :
    forLoop n (fun i (denseLayer : DenseLayer α) =>
        let denseLayer := forLoop m (fun j (denseLayer : DenseLayer α) =>
          { denseLayer with
            weights := wr2 denseLayer.weights i j
              (rd2 denseLayer.weights i j - learningRate * rd2 dL_dw i j) }) denseLayer
        { denseLayer with
          biases := wr denseLayer.biases i (rd denseLayer.biases i - learningRate * rd dL_db i) })
        denseLayer
      = { size := denseLayer.size
          biases := forLoop n
            (fun i b => wr b i (rd b i - learningRate * rd dL_db i)) denseLayer.biases
          weights := forLoop n (fun i W =>
            forLoop m (fun j W => wr2 W i j (rd2 W i j - learningRate * rd2 dL_dw i j)) W)
            denseLayer.weights } := by
  induction n with
  | zero => rfl
  | succ k ih =>
    rw [forLoop_succ, ih]
    simp only [denseUpdate_inner, forLoop_succ]

/-- The SGD update of `denseBackprop`, split into its weight part and its bias part. -/
theorem denseUpdate_split (denseLayer : DenseLayer α) (dL_dw : List (List α)) (dL_db : List α)
    (width height numFilters : Nat) (learningRate : α) :
    denseUpdate denseLayer dL_dw dL_db width height numFilters learningRate
      = { size := denseLayer.size
          biases := forLoop denseLayer.size
            (fun i b => wr b i (rd b i - learningRate * rd dL_db i)) denseLayer.biases
          weights := forLoop denseLayer.size (fun i W =>
            forLoop (width * height * numFilters)
              (fun j W => wr2 W i j (rd2 W i j - learningRate * rd2 dL_dw i j)) W)
            denseLayer.weights } :=
  denseUpdate_outer denseLayer dL_dw dL_db _ learningRate denseLayer.size

/-- The weight loops of the SGD update, as a table. -/
theorem denseUpdate_weights (W dL_dw : List (List α)) (learningRate : α) (n m : Nat)
    (hW : W.length = n) (hrow : ∀ i, i < n → (W.getD i []).length = m) :
    forLoop n (fun i W =>
        forLoop m (fun j W => wr2 W i j (rd2 W i j - learningRate * rd2 dL_dw i j)) W) W
      = (List.range n).map (fun i =>
          (List.range m).map (fun j => rd2 W i j - learningRate * rd2 dL_dw i j)) := by
  rw [forLoop_table [] n
    (fun i W => forLoop m (fun j W => wr2 W i j (rd2 W i j - learningRate * rd2 dL_dw i j)) W)
    (fun i r => forLoop m (fun j r => wr r j (rd r j - learningRate * rd2 dL_dw i j)) r) W hW
    (fun i hi s hs =>
      forLoop_lift [] i m
        (fun j W => wr2 W i j (rd2 W i j - learningRate * rd2 dL_dw i j))
        (fun j r => wr r j (rd r j - learningRate * rd2 dL_dw i j)) s (by omega)
        (fun j _ t _ => rfl))]
  apply List.map_congr_left
  intro i hi
  have hi' : i < n := List.mem_range.mp hi
  rw [forLoop_table 0 m (fun j r => wr r j (rd r j - learningRate * rd2 dL_dw i j))
    (fun j v => v - learningRate * rd2 dL_dw i j) _ (hrow i hi') (fun j _ s _ => rfl)]
  rfl

/-- The bias loop of the SGD update, as a table. -/
theorem denseUpdate_biases (b dL_db : List α) (learningRate : α) (n : Nat) (hb : b.length = n) :
    forLoop n (fun i b => wr b i (rd b i - learningRate * rd dL_db i)) b
      = (List.range n).map (fun i => rd b i - learningRate * rd dL_db i) :=
  forLoop_table 0 n _ (fun i v => v - learningRate * rd dL_db i) b hb (fun _ _ _ _ => rfl)

end DenseLemmas

/-! ## denseForward and the loss as a function of one weight -/

section DenseForwardLemmas

variable {α : Type} [LinearOrderedField α]

theorem denseForward_eq (denseLayer : DenseLayer α) (input : List α)
    (width height numFilters : Nat) :
    denseForward denseLayer input width height numFilters
      = (List.range denseLayer.size).map (fun i =>
          (∑ j in Finset.range (width * height * numFilters),
            rd input j * rd2 denseLayer.weights i j) + rd denseLayer.biases i) := by
  unfold denseForward
  refine (forLoop_table 0 denseLayer.size _
    (fun i _ => (∑ j in Finset.range (width * height * numFilters),
      rd input j * rd2 denseLayer.weights i j) + rd denseLayer.biases i) _
    (length_malloc _) ?_).trans rfl
  intro i hi s hs
  have hlen : i < (wr s i 0).length := by rw [length_wr]; omega
  simp only []
  rw [forLoop_lift 0 i (width * height * numFilters)
    (fun j output => wr output i (rd output i + rd input j * rd2 denseLayer.weights i j))
    (fun j v => v + rd input j * rd2 denseLayer.weights i j) (wr s i 0) hlen
    (fun j _ t _ => rfl)]
  rw [getD_wr_same _ _ _ _ (by omega), wr_wr, forLoop_sum, zero_add, wr_wr]
  unfold rd
  rw [getD_wr_same _ _ _ _ (by omega)]

theorem length_denseForward (denseLayer : DenseLayer α) (input : List α)
    (width height numFilters : Nat) :
    (denseForward denseLayer input width height numFilters).length = denseLayer.size := by
  rw [denseForward_eq]; simp

theorem rd_denseForward (denseLayer : DenseLayer α) (input : List α)
    (width height numFilters i : Nat) (hi : i < denseLayer.size) :
    rd (denseForward denseLayer input width height numFilters) i
      = (∑ j in Finset.range (width * height * numFilters),
          rd input j * rd2 denseLayer.weights i j) + rd denseLayer.biases i := by
  rw [denseForward_eq]; exact getD_map_range _ _ _ _ hi

theorem rd2_wr2 (xs : List (List α)) (i j k l : Nat) (v : α) (hi : i < xs.length)
    (hj : j < (xs.getD i []).length) :
    rd2 (wr2 xs i j v) k l = if k = i ∧ l = j then v else rd2 xs k l := by
  unfold rd2
  rw [wr2_eq, getD_wr]
  by_cases hk : k = i
  · subst hk
    rw [if_pos ⟨rfl, hi⟩, rd_wr]
    by_cases hl : l = j
    · rw [if_pos ⟨hl, hj⟩, if_pos ⟨rfl, hl⟩]
    · rw [if_neg (fun h => hl h.1), if_neg (fun h => hl h.2)]
  · rw [if_neg (fun h => hk h.1), if_neg (fun h => hk h.1)]

/-- Overwriting one weight `W[i][j]` by `t` changes logit `i` only, by `x[j] * (t - W[i][j])`. -/
theorem denseForward_wr2 (denseLayer : DenseLayer α) (x : List α)
    (width height numFilters i j : Nat) (t : α)
    (hi : i < denseLayer.size) (hj : j < width * height * numFilters)
    (hW : denseLayer.weights.length = denseLayer.size)
    (hrow : (denseLayer.weights.getD i []).length = width * height * numFilters) :
    denseForward { denseLayer with weights := wr2 denseLayer.weights i j t } x
        width height numFilters
      = wr (denseForward denseLayer x width height numFilters) i
          (rd (denseForward denseLayer x width height numFilters) i
            - rd x j * rd2 denseLayer.weights i j + rd x j * t) := by
  refine list_ext_getD 0 _ _ ?_ (fun k hk => ?_)
  · rw [length_wr, length_denseForward, length_denseForward]
  rw [length_denseForward] at hk
  have hk' : k < denseLayer.size := hk
  change rd _ k = rd _ k
  rw [rd_wr, rd_denseForward _ _ _ _ _ _ hk, length_denseForward]
  by_cases hki : k = i
  · subst hki
    rw [if_pos ⟨rfl, hk'⟩, rd_denseForward _ _ _ _ _ _ hk']
    have hsplit : ∀ W : List (List α),
        ∑ l in Finset.range (width * height * numFilters), rd x l * rd2 W k l
          = rd x j * rd2 W k j
            + ∑ l in (Finset.range (width * height * numFilters)).erase j,
                rd x l * rd2 W k l :=
      fun W => (Finset.add_sum_erase _ (fun l => rd x l * rd2 W k l)
        (Finset.mem_range.mpr hj)).symm
    rw [hsplit, hsplit denseLayer.weights]
    have hrest : ∑ l in (Finset.range (width * height * numFilters)).erase j,
          rd x l * rd2 (wr2 denseLayer.weights k j t) k l
        = ∑ l in (Finset.range (width * height * numFilters)).erase j,
          rd x l * rd2 denseLayer.weights k l := by
      apply Finset.sum_congr rfl
      intro l hl
      rw [rd2_wr2 _ _ _ _ _ _ (by omega) (by omega),
        if_neg (fun h => (Finset.ne_of_mem_erase hl) h.2)]
    change rd x j * rd2 (wr2 denseLayer.weights k j t) k j
      + ∑ l in (Finset.range (width * height * numFilters)).erase j,
          rd x l * rd2 (wr2 denseLayer.weights k j t) k l + rd denseLayer.biases k = _
    rw [hrest, rd2_wr2 _ _ _ _ _ _ (by omega) (by omega), if_pos ⟨rfl, rfl⟩]
    ring
  · rw [if_neg (fun h => hki h.1)]
    change ∑ l in Finset.range (width * height * numFilters),
        rd x l * rd2 (wr2 denseLayer.weights i j t) k l + rd denseLayer.biases k = _
    rw [rd_denseForward _ _ _ _ _ _ hk']
    congr 1
    apply Finset.sum_congr rfl
    intro l _
    rw [rd2_wr2 _ _ _ _ _ _ (by omega) (by omega), if_neg (fun h => hki h.1)]

end DenseForwardLemmas

section RealDense

theorem hasDerivAt_loss_logit_size (z : List ℝ) (size label i : Nat) (hz : z.length = size)
    (hl : label < size) (hi : i < size) :
    HasDerivAt (fun t => loss Real.log (softmax Real.exp (wr z i t) size) label)
      (if i = label then rd (softmax Real.exp z size) i - 1
        else rd (softmax Real.exp z size) i) (rd z i) := by
  subst hz
  exact hasDerivAt_loss_logit z label i hl hi

/-- Derivative of the loss of the network head in one dense weight. -/
theorem hasDerivAt_loss_weight (denseLayer : DenseLayer ℝ) (x : List ℝ)
    (width height numFilters label i j : Nat)
    (hW : denseLayer.weights.length = denseLayer.size)
    (hrow : (denseLayer.weights.getD i []).length = width * height * numFilters)
    (hl : label < denseLayer.size) (hi : i < denseLayer.size)
    (hj : j < width * height * numFilters) :
    HasDerivAt
      (fun t => loss Real.log
        (softmax Real.exp
          (denseForward { denseLayer with weights := wr2 denseLayer.weights i j t } x
            width height numFilters) denseLayer.size) label)
      ((if i = label then
          rd (softmax Real.exp (denseForward denseLayer x width height numFilters)
            denseLayer.size) i - 1
        else
          rd (softmax Real.exp (denseForward denseLayer x width height numFilters)
            denseLayer.size) i) * rd x j)
      (rd2 denseLayer.weights i j) := by
  set z := denseForward denseLayer x width height numFilters with hz
  have hfun : (fun t => loss Real.log
        (softmax Real.exp
          (denseForward { denseLayer with weights := wr2 denseLayer.weights i j t } x
            width height numFilters) denseLayer.size) label)
      = (fun u => loss Real.log (softmax Real.exp (wr z i u) denseLayer.size) label)
          ∘ (fun t => rd z i - rd x j * rd2 denseLayer.weights i j + rd x j * t) := by
    funext t
    simp only [Function.comp]
    rw [denseForward_wr2 denseLayer x width height numFilters i j t hi hj hW hrow]
  have hlin : HasDerivAt (fun t => rd z i - rd x j * rd2 denseLayer.weights i j + rd x j * t)
      (rd x j) (rd2 denseLayer.weights i j) := by
    have := ((hasDerivAt_id (rd2 denseLayer.weights i j)).const_mul (rd x j)).const_add
      (rd z i - rd x j * rd2 denseLayer.weights i j)
    simpa using this
  have hpt : rd z i - rd x j * rd2 denseLayer.weights i j
      + rd x j * rd2 denseLayer.weights i j = rd z i := by ring
  have hg := hasDerivAt_loss_logit_size z denseLayer.size label i
    (length_denseForward _ _ _ _ _) hl hi
  rw [← hpt] at hg
  rw [hfun]
  exact HasDerivAt.comp (rd2 denseLayer.weights i j) hg hlin

end RealDense

/-! ## Convolution -/

section ConvLemmas

variable {α : Type} [LinearOrderedField α]

/-- Two nested loops that store `g i j` in slot `idx i j`, for an index map that is injective
on the iteration space. -/
theorem forLoop_grid {β : Type} (d : β) (n m len : Nat) (idx : Nat → Nat → Nat)
    (body : Nat → Nat → List β → List β) (g : Nat → Nat → β) (s0 : List β)
    (hlen : s0.length = len)
    (hidx : ∀ i j, i < n → j < m → idx i j < len)
    (hinj : ∀ i j i' j', i < n → j < m → i' < n → j' < m → idx i j = idx i' j' →
      i = i' ∧ j = j')
    (hbody : ∀ i j, i < n → j < m → ∀ s : List β, s.length = len →
      body i j s = wr s (idx i j) (g i j)) :
    (forLoop n (fun i s => forLoop m (fun j s => body i j s) s) s0).length = len ∧
      ∀ i j, i < n → j < m →
        (forLoop n (fun i s => forLoop m (fun j s => body i j s) s) s0).getD (idx i j) d
          = g i j := by
  refine forLoop_inv
    (fun i s => s.length = len ∧
      ∀ i' j, i' < i → j < m → s.getD (idx i' j) d = g i' j)
    n _ s0 ⟨hlen, fun i' j hi' => absurd hi' (Nat.not_lt_zero _)⟩ ?_
  intro i hi t ⟨htlen, ht⟩
  have hinner := forLoop_inv
    (fun j s => s.length = len ∧
      (∀ i' j', i' < i → j' < m → s.getD (idx i' j') d = g i' j') ∧
      ∀ j', j' < j → s.getD (idx i j') d = g i j')
    m (fun j s => body i j s) t
    ⟨htlen, ht, fun j' hj' => absurd hj' (Nat.not_lt_zero _)⟩
    (by
      intro j hj u ⟨hulen, hu1, hu2⟩
      have hb := hbody i j hi hj u hulen
      dsimp only
      rw [hb]
      refine ⟨by rw [length_wr, hulen], fun i' j' hi' hj' => ?_, fun j' hj' => ?_⟩
      · rw [getD_wr_ne _ _ _ _ _ (fun h => ?_), hu1 i' j' hi' hj']
        have := (hinj i' j' i j (by omega) hj' hi hj h).1
        omega
      · by_cases hjj : j' = j
        · subst hjj
          exact getD_wr_same _ _ _ _ (by rw [hulen]; exact hidx i j' hi hj)
        · rw [getD_wr_ne _ _ _ _ _ (fun h => ?_), hu2 j' (by omega)]
          exact hjj (hinj i j' i j hi (by omega) hi hj h).2)
  refine ⟨hinner.1, fun i' j hi' hj => ?_⟩
  by_cases hii : i' = i
  · subst hii
    exact hinner.2.2 j hj
  · exact hinner.2.1 i' j (by omega) hj

theorem row_major_inj (m i j i' j' : Nat) (hj : j < m) (hj' : j' < m)
    (h : i * m + j = i' * m + j') : i = i' ∧ j = j' := by
  have h1 : (i * m + j) / m = i := by
    rw [Nat.mul_comm, Nat.mul_add_div (by omega), Nat.div_eq_of_lt hj, Nat.add_zero]
  have h2 : (i' * m + j') / m = i' := by
    rw [Nat.mul_comm, Nat.mul_add_div (by omega), Nat.div_eq_of_lt hj', Nat.add_zero]
  have hi : i = i' := by rw [← h1, ← h2, h]
  subst hi
  exact ⟨rfl, by omega⟩

theorem row_major_lt (n m i j : Nat) (hi : i < n) (hj : j < m) : i * m + j < n * m := by
  have : (i + 1) * m ≤ n * m := Nat.mul_le_mul_right m hi
  rw [Nat.add_mul, Nat.one_mul] at this
  omega

/-- The step `out[p] = malloc(n); for k: out[p][k] = v k`. -/
theorem row_fill {α : Type} [Zero α] (s : List (List α)) (p n : Nat) (v : Nat → α)
    (hp : p < s.length) :
    forLoop n (fun k out => wr2 out p k (v k)) (wr s p (malloc n))
      = wr s p ((List.range n).map v) := by
  rw [forLoop_lift [] p n (fun k out => wr2 out p k (v k)) (fun k r => wr r k (v k))
    (wr s p (malloc n)) (by rw [length_wr]; exact hp) (fun j _ t _ => rfl)]
  rw [getD_wr_same _ _ _ _ hp, wr_wr, forLoop_fill 0 n _ _ (length_malloc n)]

/-- The double accumulation loop of `convolution`. -/
theorem convolution_eq (filter : List (List α)) (cell : List α) :
    convolution filter cell
      = ∑ a in Finset.range 3, ∑ b in Finset.range 3, rd cell (a * 3 + b) * rd2 filter a b := by
  unfold convolution
  simp only [forLoop_sum, zero_add]

/-- Cells of `convolutionGrid`: the flattened `divisor × divisor` window at `(i, j)`. -/
theorem convolutionGrid_spec (image : List (List α)) (width height divisor : Nat) :
    (convolutionGrid image width height divisor).length
        = (width - (divisor - 1)) * (height - (divisor - 1)) ∧
    ∀ i j, i < width - (divisor - 1) → j < height - (divisor - 1) →
      ((convolutionGrid image width height divisor).getD (i * (height - (divisor - 1)) + j)
          []).length = divisor * divisor ∧
      ∀ k l, k < divisor → l < divisor →
        rd ((convolutionGrid image width height divisor).getD
          (i * (height - (divisor - 1)) + j) []) (k * divisor + l)
          = rd2 image (i + k) (j + l) := by
  have hcell : ∀ i j : Nat,
      (forLoop divisor (fun k cell =>
        forLoop divisor (fun l cell =>
          wr cell (k * divisor + l) (rd2 image (i + k) (j + l))) cell)
        (malloc (divisor * divisor) : List α)).length = divisor * divisor ∧
      ∀ k l, k < divisor → l < divisor →
        (forLoop divisor (fun k cell =>
          forLoop divisor (fun l cell =>
            wr cell (k * divisor + l) (rd2 image (i + k) (j + l))) cell)
          (malloc (divisor * divisor) : List α)).getD (k * divisor + l) 0
          = rd2 image (i + k) (j + l) :=
    fun i j => forLoop_grid 0 divisor divisor (divisor * divisor)
      (fun k l => k * divisor + l)
      (fun k l cell => wr cell (k * divisor + l) (rd2 image (i + k) (j + l)))
      (fun k l => rd2 image (i + k) (j + l)) _ (length_malloc _)
      (fun k l hk hl => row_major_lt _ _ _ _ hk hl)
      (fun k l k' l' _ hl _ hl' h => row_major_inj _ _ _ _ _ hl hl' h)
      (fun _ _ _ _ _ _ => rfl)
  have hgrid := forLoop_grid ([] : List α) (width - (divisor - 1)) (height - (divisor - 1))
    ((width - (divisor - 1)) * (height - (divisor - 1)))
    (fun i j => i * (height - (divisor - 1)) + j)
    (fun i j grid =>
      wr grid (i * (height - (divisor - 1)) + j)
        (forLoop divisor (fun k cell =>
          forLoop divisor (fun l cell =>
            wr cell (k * divisor + l) (rd2 image (i + k) (j + l))) cell)
          (malloc (divisor * divisor))))
    (fun i j =>
      forLoop divisor (fun k cell =>
        forLoop divisor (fun l cell =>
          wr cell (k * divisor + l) (rd2 image (i + k) (j + l))) cell)
        (malloc (divisor * divisor)))
    (mallocPtr ((width - (divisor - 1)) * (height - (divisor - 1)))) (length_mallocPtr _)
    (fun i j hi hj => row_major_lt _ _ _ _ hi hj)
    (fun i j i' j' _ hj _ hj' h => row_major_inj _ _ _ _ _ hj hj' h)
    (fun _ _ _ _ _ _ => rfl)
  refine ⟨hgrid.1, fun i j hi hj => ?_⟩
  have hij := hgrid.2 i j hi hj
  unfold convolutionGrid
  simp only []
  rw [hij]
  exact ⟨(hcell i j).1, (hcell i j).2⟩

/-- Cells of `convolutionForward`: one `convolution` per filter on the window at `(i, j)`. -/
theorem convolutionForward_spec (convLayer : ConvLayer α) (image : List (List α))
    (width height divisor : Nat) :
    (convolutionForward convLayer image width height divisor).length
        = (width - (divisor - 1)) * (height - (divisor - 1)) ∧
    ∀ i j, i < width - (divisor - 1) → j < height - (divisor - 1) →
      (convolutionForward convLayer image width height divisor).getD
          (i * (height - (divisor - 1)) + j) []
        = (List.range convLayer.numFilters).map (fun k =>
            convolution (convLayer.filters.getD k [])
              ((convolutionGrid image width height divisor).getD
                (i * (height - (divisor - 1)) + j) [])) := by
  unfold convolutionForward
  exact forLoop_grid ([] : List α) (width - (divisor - 1)) (height - (divisor - 1))
    ((width - (divisor - 1)) * (height - (divisor - 1)))
    (fun i j => i * (height - (divisor - 1)) + j)
    (fun i j output =>
      forLoop convLayer.numFilters (fun k output =>
        wr2 output (i * (height - (divisor - 1)) + j) k
          (convolution (convLayer.filters.getD k [])
            ((convolutionGrid image width height divisor).getD
              (i * (height - (divisor - 1)) + j) [])))
        (wr output (i * (height - (divisor - 1)) + j) (malloc convLayer.numFilters)))
    (fun i j => (List.range convLayer.numFilters).map (fun k =>
      convolution (convLayer.filters.getD k [])
        ((convolutionGrid image width height divisor).getD
          (i * (height - (divisor - 1)) + j) [])))
    (mallocPtr ((width - (divisor - 1)) * (height - (divisor - 1)))) (length_mallocPtr _)
    (fun i j hi hj => row_major_lt _ _ _ _ hi hj)
    (fun i j i' j' _ hj _ hj' h => row_major_inj _ _ _ _ _ hj hj' h)
    (fun i j hi hj s hs => row_fill s _ _ _ (by rw [hs]; exact row_major_lt _ _ _ _ hi hj))

end ConvLemmas

/-! ## The filter update and the `int` learning rate -/

section ConvUpdateLemmas

variable {α : Type} [LinearOrderedField α]

theorem set_getD_self {β : Type} (xs : List β) (i : Nat) (d : β) :
    xs.set i (xs.getD i d) = xs := by
  induction xs generalizing i with
  | nil => rfl
  | cons x xs ih =>
    cases i with
    | zero => rfl
    | succ i => simpa using ih i

theorem wr3_rd3_self (F : List (List (List α))) (k x y : Nat) :
    wr3 F k x y (rd3 F k x y) = F := by
  unfold wr3 wr2 rd3 rd2 rd
  rw [set_getD_self, set_getD_self, set_getD_self]

theorem forLoop_id {σ : Type} (n : Nat) (body : Nat → σ → σ) (s : σ)
    (h : ∀ i, i < n → ∀ t, body i t = t) : forLoop n body s = s := by
  induction n with
  | zero => rfl
  | succ k ih =>
    rw [forLoop_succ, ih (fun i hi t => h i (Nat.lt_succ_of_lt hi) t), h k (Nat.lt_succ_self k)]

/-- With the rate `0` the filter update loop changes nothing. -/
theorem convUpdate_zero (convLayer : ConvLayer α) (dL_df : List (List (List α))) :
    convUpdate convLayer dL_df 0 = convLayer := by
  unfold convUpdate
  refine forLoop_id _ _ _ (fun k _ t => forLoop_id _ _ _ (fun x _ t => forLoop_id _ _ _
    (fun y _ t => ?_)))
  simp only [Int.cast_zero, zero_mul, sub_zero, wr3_rd3_self]

/-- The convolution layer returned by `backpropagation` is the filter update applied to the
gradient `backpropagation_dL_df`, with the rate converted to `int`. -/
theorem backpropagation_conv_eq [FloorRing α] (exp : α → α) (convLayer : ConvLayer α)
    (denseLayer : DenseLayer α) (image : List (List α)) (width height divisor label : Nat)
    (learningRate : α) :
    (backpropagation exp convLayer denseLayer image width height divisor label
        learningRate).1
      = convUpdate convLayer
          (backpropagation_dL_df exp convLayer denseLayer image width height divisor label
            learningRate)
          (doubleToInt learningRate) := rfl

/-- A `double` of absolute value below 1 converts to the `int` 0. -/
theorem doubleToInt_eq_zero [FloorRing α] (x : α) (h : |x| < 1) : doubleToInt x = 0 := by
  have h' := abs_lt.mp h
  unfold doubleToInt
  split_ifs with h0
  · exact Int.floor_eq_zero_iff.mpr ⟨h0, h'.2⟩
  · exact Int.ceil_eq_zero_iff.mpr ⟨h'.1, le_of_lt (not_le.mp h0)⟩

/-- A `backpropagation` step with a rate of absolute value below 1 returns the convolution
layer it was given. -/
theorem backpropagation_conv_small_rate [FloorRing α] (exp : α → α) (convLayer : ConvLayer α)
    (denseLayer : DenseLayer α) (image : List (List α)) (width height divisor label : Nat)
    (learningRate : α) (h : |learningRate| < 1) :
    (backpropagation exp convLayer denseLayer image width height divisor label
        learningRate).1 = convLayer := by
  rw [backpropagation_conv_eq, doubleToInt_eq_zero learningRate h, convUpdate_zero]

end ConvUpdateLemmas

/-! ## accuracy -/

section AccuracyLemmas

variable {α : Type} [LinearOrderedField α]

/-- The scan of `accuracy` ends on the first index at which the maximum is attained. -/
theorem accuracy_scan (probs : List α) (size : Nat) (hsize : 1 ≤ size) :
    (forLoop size
        (fun i (s : α × Nat) => if rd probs i > s.1 then (rd probs i, i) else s)
        (rd probs 0, 0)).2 < size ∧
    (∀ j, j < size → rd probs j ≤ rd probs (forLoop size
        (fun i (s : α × Nat) => if rd probs i > s.1 then (rd probs i, i) else s)
        (rd probs 0, 0)).2) ∧
    (∀ j, j < (forLoop size
        (fun i (s : α × Nat) => if rd probs i > s.1 then (rd probs i, i) else s)
        (rd probs 0, 0)).2 →
      rd probs j < rd probs (forLoop size
        (fun i (s : α × Nat) => if rd probs i > s.1 then (rd probs i, i) else s)
        (rd probs 0, 0)).2) := by
  have h := forLoop_inv
    (fun i (s : α × Nat) => s.1 = rd probs s.2 ∧ (s.2 < i ∨ s.2 = 0) ∧
      (∀ j, j < i → rd probs j ≤ s.1) ∧ (∀ j, j < s.2 → rd probs j < s.1))
    size (fun i (s : α × Nat) => if rd probs i > s.1 then (rd probs i, i) else s)
    (rd probs 0, 0)
    ⟨rfl, Or.inr rfl, fun j hj => absurd hj (Nat.not_lt_zero _),
      fun j hj => absurd hj (Nat.not_lt_zero _)⟩
    (by
      intro i _ s ⟨h1, h2, h3, h4⟩
      dsimp only
      split_ifs with hgt
      · refine ⟨rfl, Or.inl (Nat.lt_succ_self i), fun j hj => ?_, fun j hj => ?_⟩
        · rcases Nat.lt_succ_iff_lt_or_eq.mp hj with hlt | heq
          · exact le_of_lt (lt_of_le_of_lt (h3 j hlt) hgt)
          · rw [heq]
        · exact lt_of_le_of_lt (h3 j hj) hgt
      · refine ⟨h1, ?_, fun j hj => ?_, h4⟩
        · rcases h2 with h2 | h2
          · exact Or.inl (by omega)
          · exact Or.inr h2
        · rcases Nat.lt_succ_iff_lt_or_eq.mp hj with hlt | heq
          · exact h3 j hlt
          · rw [heq]; exact not_lt.mp hgt)
  obtain ⟨h1, h2, h3, h4⟩ := h
  refine ⟨by omega, fun j hj => ?_, fun j hj => ?_⟩
  · rw [← h1]; exact h3 j hj
  · rw [← h1]; exact h4 j hj

end AccuracyLemmas

/-! ## Inputs read by `poolingForward` -/

section PoolingLemmas

variable {α : Type} [LinearOrderedField α]

/-- Nested loops with bodies that agree on the iteration space are equal. -/
theorem forLoop_congr2 {σ : Type} (n m : Nat) (b1 b2 : Nat → Nat → σ → σ)
    (pre1 pre2 : Nat → σ → σ) (s : σ)
    (hpre : ∀ i, i < n → ∀ t, pre1 i t = pre2 i t)
    (h : ∀ i j, i < n → j < m → ∀ t, b1 i j t = b2 i j t) :
    forLoop n (fun i s => forLoop m (fun j s => b1 i j s) (pre1 i s)) s
      = forLoop n (fun i s => forLoop m (fun j s => b2 i j s) (pre2 i s)) s :=
  forLoop_congr n _ _ s (fun i hi t => by
    rw [hpre i hi t]
    exact forLoop_congr m _ _ _ (fun j hj u => h i j hi hj u))

/-- The cells of the input that `poolingForward` reads lie below `2*width*height + width`. -/
theorem pooling_read_lt (width height i : Nat) (hi : i < width * height) :
    2 * i + width + 1 < 2 * width * height + width := by
  have : 2 * (i + 1) ≤ 2 * (width * height) := Nat.mul_le_mul_left 2 hi
  rw [Nat.mul_assoc]
  omega

/-- Inputs that agree on the cells read give the same pooled vector. -/
theorem poolingForward_congr (input input' : List (List α)) (width height numFilters : Nat)
    (h : ∀ p, p < 2 * width * height + width → input.getD p [] = input'.getD p []) :
    poolingForward input width height numFilters
      = poolingForward input' width height numFilters := by
  unfold poolingForward
  have hout : forLoop (width * height) (fun i output =>
        forLoop numFilters (fun k output =>
          wr2 output i k (tabMax
            (wr (wr (wr (wr (malloc 4) 0 (rd2 input (2 * i) k)) 1 (rd2 input (2 * i + 1) k)) 2
              (rd2 input (2 * i + width) k)) 3 (rd2 input (2 * i + width + 1) k)) 4))
          (wr output i (malloc numFilters))) (mallocPtr (width * height))
      = forLoop (width * height) (fun i output =>
        forLoop numFilters (fun k output =>
          wr2 output i k (tabMax
            (wr (wr (wr (wr (malloc 4) 0 (rd2 input' (2 * i) k)) 1 (rd2 input' (2 * i + 1) k)) 2
              (rd2 input' (2 * i + width) k)) 3 (rd2 input' (2 * i + width + 1) k)) 4))
          (wr output i (malloc numFilters))) (mallocPtr (width * height)) := by
    refine forLoop_congr2 _ _ _ _ _ _ _ (fun _ _ _ => rfl) (fun i k hi _ t => ?_)
    have hb := pooling_read_lt width height i hi
    unfold rd2
    rw [h (2 * i) (by omega), h (2 * i + 1) (by omega), h (2 * i + width) (by omega),
      h (2 * i + width + 1) hb]
  simp only []
  rw [hout]

end PoolingLemmas

/-! ## Gaussian initialisation: the hidden `hasSpare` state -/

section InitLemmas

variable {α : Type} [LinearOrderedField α] {G : Type}

theorem forLoopM_zero {σ : Type} (body : Nat → σ → Option σ) (s : σ) :
    forLoopM 0 body s = some s := rfl

theorem forLoopM_succ {σ : Type} (n : Nat) (body : Nat → σ → Option σ) (s : σ) :
    forLoopM (n + 1) body s = (forLoopM n body s).bind (body n) := rfl

theorem optionRel_bind {σ τ : Type} (R : σ → σ → Prop) (S : τ → τ → Prop)
    (o o' : Option σ) (f f' : σ → Option τ) (h : Option.Rel R o o')
    (hf : ∀ a b, R a b → Option.Rel S (f a) (f' b)) :
    Option.Rel S (o.bind f) (o'.bind f') := by
  cases h with
  | some hab => exact hf _ _ hab
  | none => exact Option.Rel.none

theorem optionRel_map {σ τ : Type} (R : σ → σ → Prop) (S : τ → τ → Prop)
    (o o' : Option σ) (f f' : σ → τ) (h : Option.Rel R o o')
    (hf : ∀ a b, R a b → S (f a) (f' b)) :
    Option.Rel S (o.map f) (o'.map f') := by
  cases h with
  | some hab => exact Option.Rel.some (hf _ _ hab)
  | none => exact Option.Rel.none

theorem optionRel_refl {σ : Type} (R : σ → σ → Prop) (hR : ∀ a, R a a) (o : Option σ) :
    Option.Rel R o o := by
  cases o with
  | none => exact Option.Rel.none
  | some a => exact Option.Rel.some (hR a)

theorem optionRel_some_left {σ : Type} (R : σ → σ → Prop) (a : σ) (o : Option σ)
    (h : Option.Rel R (some a) o) : ∃ b, o = some b ∧ R a b := by
  cases o with
  | none => cases h
  | some b =>
    cases h with
    | some hab => exact ⟨b, rfl, hab⟩

/-- Relational rule for loops that may fail. -/
theorem forLoopM_rel {σ : Type} (R : σ → σ → Prop) (n : Nat) (body body' : Nat → σ → Option σ)
    (a b : σ) (hab : R a b)
    (hstep : ∀ i, i < n → ∀ a b, R a b → Option.Rel R (body i a) (body' i b)) :
    Option.Rel R (forLoopM n body a) (forLoopM n body' b) := by
  induction n with
  | zero => exact Option.Rel.some hab
  | succ k ih =>
    rw [forLoopM_succ, forLoopM_succ]
    exact optionRel_bind R R _ _ _ _ (ih (fun i hi => hstep i (Nat.lt_succ_of_lt hi)))
      (hstep k (Nat.lt_succ_self k))

/-- A loop whose iterations each flip a flag `m` times flips it `n * m` times. -/
theorem forLoopM_flag {σ : Type} (flag : σ → Bool) (m n : Nat) (body : Nat → σ → Option σ)
    (hstep : ∀ i, i < n → ∀ a b, body i a = some b →
      flag b = xor (flag a) (Nat.bodd m)) (a b : σ) (h : forLoopM n body a = some b) :
    flag b = xor (flag a) (Nat.bodd (n * m)) := by
  induction n generalizing b with
  | zero =>
    rw [forLoopM_zero] at h
    cases h
    simp
  | succ k ih =>
    rw [forLoopM_succ] at h
    obtain ⟨c, hc, hb⟩ := Option.bind_eq_some.mp h
    rw [hstep k (Nat.lt_succ_self k) c b hb,
      ih (fun i hi => hstep i (Nat.lt_succ_of_lt hi)) c hc, Nat.succ_mul, Nat.bodd_add,
      Bool.xor_assoc]

theorem same_refl {β : Type} (st : BoxMullerState β) : st.same st := ⟨rfl, fun _ => rfl⟩

/-- `convBoxMuller` gives the same sample and generator state from static states it cannot
tell apart. -/
theorem convBoxMuller_same (libc : Libc G) (sqrt log : α → α) (fuel : Nat)
    (st st' : BoxMullerState α) (g : G) (h : st.same st') :
    Option.Rel (fun r r' : α × BoxMullerState α × G =>
        r.1 = r'.1 ∧ r.2.1.same r'.2.1 ∧ r.2.2 = r'.2.2)
      (convBoxMuller libc sqrt log fuel st g) (convBoxMuller libc sqrt log fuel st' g) := by
  unfold convBoxMuller
  by_cases hs : st.hasSpare = true
  · have hs' : st'.hasSpare = true := by rw [← h.1]; exact hs
    rw [if_pos hs, if_pos hs']
    exact Option.Rel.some ⟨h.2 hs, ⟨rfl, fun hh => by simp at hh⟩, rfl⟩
  · have hs' : ¬ st'.hasSpare = true := by rw [← h.1]; exact hs
    rw [if_neg hs, if_neg hs']
    exact optionRel_refl _ (fun r => ⟨rfl, same_refl _, rfl⟩) _

/-- `convBoxMuller` flips `hasSpare`. -/
theorem convBoxMuller_flag (libc : Libc G) (sqrt log : α → α) (fuel : Nat)
    (st : BoxMullerState α) (g : G) (r : α × BoxMullerState α × G)
    (h : convBoxMuller libc sqrt log fuel st g = some r) :
    r.2.1.hasSpare = xor st.hasSpare (Nat.bodd 1) := by
  unfold convBoxMuller at h
  by_cases hs : st.hasSpare = true
  · rw [if_pos hs] at h
    cases h
    simp [hs]
  · rw [if_neg hs] at h
    obtain ⟨c, _, hc⟩ := Option.map_eq_some'.mp h
    rw [← hc]
    simp at hs
    simp [hs]

theorem denseBoxMuller_eq (libc : Libc G) (sqrt log : α → α) (fuel : Nat) :
    denseBoxMuller libc sqrt log fuel = (convBoxMuller libc sqrt log fuel : _ → _ → _) := rfl

/-- `initConvLayer` on static states it cannot tell apart. -/
theorem initConvLayer_same (libc : Libc G) (sqrt log : α → α) (fuel : Nat)
    (numFilters filterSize : Nat) (st st' : BoxMullerState α) (g : G) (h : st.same st') :
    Option.Rel (fun r r' : ConvLayer α × BoxMullerState α × G =>
        r.1 = r'.1 ∧ r.2.1.same r'.2.1 ∧ r.2.2 = r'.2.2)
      (initConvLayer libc sqrt log fuel numFilters filterSize st g)
      (initConvLayer libc sqrt log fuel numFilters filterSize st' g) := by
  unfold initConvLayer
  refine optionRel_map
    (fun s s' : List (List (List α)) × BoxMullerState α × G =>
      s.1 = s'.1 ∧ s.2.1.same s'.2.1 ∧ s.2.2 = s'.2.2) _ _ _ _ _ ?_
    (fun a b hab => ⟨by rw [hab.1], hab.2.1, hab.2.2⟩)
  refine forLoopM_rel _ _ _ _ _ _ ⟨rfl, h, rfl⟩ (fun i _ a b hab => ?_)
  refine forLoopM_rel _ _ _ _ _ _ ⟨by rw [hab.1], hab.2.1, hab.2.2⟩ (fun j _ a b hab => ?_)
  refine forLoopM_rel _ _ _ _ _ _ ⟨by rw [hab.1], hab.2.1, hab.2.2⟩ (fun k _ a b hab => ?_)
  rw [hab.2.2]
  refine optionRel_map _ _ _ _ _ _ (convBoxMuller_same libc sqrt log fuel _ _ _ hab.2.1)
    (fun r r' hr => ⟨by rw [hab.1, hr.1], hr.2.1, hr.2.2⟩)

/-- `initDenseLayer` on static states it cannot tell apart. -/
theorem initDenseLayer_same (libc : Libc G) (sqrt log : α → α) (fuel : Nat)
    (size width height numFilters : Nat) (st st' : BoxMullerState α) (g : G)
    (h : st.same st') :
    Option.Rel (fun r r' : DenseLayer α × BoxMullerState α × G =>
        r.1 = r'.1 ∧ r.2.1.same r'.2.1 ∧ r.2.2 = r'.2.2)
      (initDenseLayer libc sqrt log fuel size width height numFilters st g)
      (initDenseLayer libc sqrt log fuel size width height numFilters st' g) := by
  unfold initDenseLayer
  refine optionRel_map
    (fun s s' : List (List α) × BoxMullerState α × G =>
      s.1 = s'.1 ∧ s.2.1.same s'.2.1 ∧ s.2.2 = s'.2.2) _ _ _ _ _ ?_
    (fun a b hab => ⟨by rw [hab.1], hab.2.1, hab.2.2⟩)
  refine forLoopM_rel _ _ _ _ _ _ ⟨rfl, h, rfl⟩ (fun i _ a b hab => ?_)
  refine forLoopM_rel _ _ _ _ _ _ ⟨by rw [hab.1], hab.2.1, hab.2.2⟩ (fun j _ a b hab => ?_)
  rw [hab.2.2, denseBoxMuller_eq]
  refine optionRel_map _ _ _ _ _ _ (convBoxMuller_same libc sqrt log fuel _ _ _ hab.2.1)
    (fun r r' hr => ⟨by rw [hab.1, hr.1], hr.2.1, hr.2.2⟩)

/-- After `initConvLayer` the flag `hasSpare` has been flipped once per filter entry. -/
theorem initConvLayer_flag (libc : Libc G) (sqrt log : α → α) (fuel : Nat)
    (numFilters filterSize : Nat) (st : BoxMullerState α) (g : G)
    (r : ConvLayer α × BoxMullerState α × G)
    (h : initConvLayer libc sqrt log fuel numFilters filterSize st g = some r) :
    r.2.1.hasSpare
      = xor st.hasSpare (Nat.bodd (numFilters * (filterSize * (filterSize * 1)))) := by
  unfold initConvLayer at h
  obtain ⟨s, hs, hr⟩ := Option.map_eq_some'.mp h
  rw [← hr]
  have hk : ∀ (i j k : Nat) (a b : List (List (List α)) × BoxMullerState α × G),
      (convBoxMuller libc sqrt log fuel a.2.1 a.2.2).map (fun r =>
          (wr3 a.1 i j k (r.1 * sqrt (2 / ((filterSize : α) * (filterSize : α)))),
            r.2.1, r.2.2)) = some b →
      b.2.1.hasSpare = xor a.2.1.hasSpare (Nat.bodd 1) := by
    intro i j k a b hb
    obtain ⟨c, hc, hcb⟩ := Option.map_eq_some'.mp hb
    rw [← hcb]
    exact convBoxMuller_flag libc sqrt log fuel _ _ c hc
  have hj : ∀ (i j : Nat) (a b : List (List (List α)) × BoxMullerState α × G),
      forLoopM filterSize (fun k (s : List (List (List α)) × BoxMullerState α × G) =>
          (convBoxMuller libc sqrt log fuel s.2.1 s.2.2).map (fun r =>
            (wr3 s.1 i j k (r.1 * sqrt (2 / ((filterSize : α) * (filterSize : α)))),
              r.2.1, r.2.2)))
        (wr2 a.1 i j (malloc filterSize), a.2.1, a.2.2) = some b →
      b.2.1.hasSpare = xor a.2.1.hasSpare (Nat.bodd (filterSize * 1)) :=
    fun i j a b hb =>
      forLoopM_flag (fun s : List (List (List α)) × BoxMullerState α × G => s.2.1.hasSpare)
        1 filterSize _ (fun k _ a b hb => hk i j k a b hb)
        (wr2 a.1 i j (malloc filterSize), a.2.1, a.2.2) b hb
  have hi : ∀ (i : Nat) (a b : List (List (List α)) × BoxMullerState α × G),
      forLoopM filterSize (fun j (s : List (List (List α)) × BoxMullerState α × G) =>
          forLoopM filterSize (fun k (s : List (List (List α)) × BoxMullerState α × G) =>
            (convBoxMuller libc sqrt log fuel s.2.1 s.2.2).map (fun r =>
              (wr3 s.1 i j k (r.1 * sqrt (2 / ((filterSize : α) * (filterSize : α)))),
                r.2.1, r.2.2)))
          (wr2 s.1 i j (malloc filterSize), s.2.1, s.2.2))
        (wr a.1 i (mallocPtr filterSize), a.2.1, a.2.2) = some b →
      b.2.1.hasSpare = xor a.2.1.hasSpare (Nat.bodd (filterSize * (filterSize * 1))) :=
    fun i a b hb =>
      forLoopM_flag (fun s : List (List (List α)) × BoxMullerState α × G => s.2.1.hasSpare)
        (filterSize * 1) filterSize _ (fun j _ a b hb => hj i j a b hb)
        (wr a.1 i (mallocPtr filterSize), a.2.1, a.2.2) b hb
  exact forLoopM_flag
    (fun s : List (List (List α)) × BoxMullerState α × G => s.2.1.hasSpare)
    (filterSize * (filterSize * 1)) numFilters _ (fun i _ a b hb => hi i a b hb) _ s hs

/-- After `initDenseLayer` the flag `hasSpare` has been flipped once per weight. -/
theorem initDenseLayer_flag (libc : Libc G) (sqrt log : α → α) (fuel : Nat)
    (size width height numFilters : Nat) (st : BoxMullerState α) (g : G)
    (r : DenseLayer α × BoxMullerState α × G)
    (h : initDenseLayer libc sqrt log fuel size width height numFilters st g = some r) :
    r.2.1.hasSpare
      = xor st.hasSpare (Nat.bodd (size * (width * height * numFilters * 1))) := by
  unfold initDenseLayer at h
  obtain ⟨s, hs, hr⟩ := Option.map_eq_some'.mp h
  rw [← hr]
  have hj : ∀ (i j : Nat) (a b : List (List α) × BoxMullerState α × G),
      (denseBoxMuller libc sqrt log fuel a.2.1 a.2.2).map (fun r =>
          (wr2 a.1 i j
            (r.1 * sqrt (2 / ((width : α) * (height : α) * (numFilters : α)))),
            r.2.1, r.2.2)) = some b →
      b.2.1.hasSpare = xor a.2.1.hasSpare (Nat.bodd 1) := by
    intro i j a b hb
    obtain ⟨c, hc, hcb⟩ := Option.map_eq_some'.mp hb
    rw [← hcb]
    exact convBoxMuller_flag libc sqrt log fuel _ _ c hc
  have hi : ∀ (i : Nat) (a b : List (List α) × BoxMullerState α × G),
      forLoopM (width * height * numFilters)
        (fun j (s : List (List α) × BoxMullerState α × G) =>
          (denseBoxMuller libc sqrt log fuel s.2.1 s.2.2).map (fun r =>
            (wr2 s.1 i j
              (r.1 * sqrt (2 / ((width : α) * (height : α) * (numFilters : α)))),
              r.2.1, r.2.2)))
        (wr a.1 i (malloc (width * height * numFilters)), a.2.1, a.2.2) = some b →
      b.2.1.hasSpare
        = xor a.2.1.hasSpare (Nat.bodd (width * height * numFilters * 1)) :=
    fun i a b hb =>
      forLoopM_flag (fun s : List (List α) × BoxMullerState α × G => s.2.1.hasSpare)
        1 (width * height * numFilters) _ (fun j _ a b hb => hj i j a b hb)
        (wr a.1 i (malloc (width * height * numFilters)), a.2.1, a.2.2) b hb
  exact forLoopM_flag (fun s : List (List α) × BoxMullerState α × G => s.2.1.hasSpare)
    (width * height * numFilters * 1) size _ (fun i _ a b hb => hi i a b hb) _ s hs

theorem bodd_of_even (n : Nat) (h : Even n) : Nat.bodd n = false := by
  obtain ⟨k, hk⟩ := h
  rw [hk, Nat.bodd_add]
  cases Nat.bodd k <;> rfl

/-- The biases built by `initDenseLayer` are all zero. -/
theorem initDenseLayer_biases (libc : Libc G) (sqrt log : α → α) (fuel : Nat)
    (size width height numFilters : Nat) (st : BoxMullerState α) (g : G)
    (r : DenseLayer α × BoxMullerState α × G)
    (h : initDenseLayer libc sqrt log fuel size width height numFilters st g = some r) :
    r.1.size = size ∧ r.1.biases = malloc size := by
  unfold initDenseLayer at h
  obtain ⟨s, _, hr⟩ := Option.map_eq_some'.mp h
  rw [← hr]
  exact ⟨rfl, rfl⟩

end InitLemmas

/-! ## One dense training step -/

section DenseStepLemmas

variable {α : Type} [LinearOrderedField α]

theorem rd_map_range (n j : Nat) (f : Nat → α) (hj : j < n) :
    rd ((List.range n).map f) j = f j := getD_map_range n j f 0 hj

theorem list_eq_map_rd (xs : List α) (n : Nat) (h : xs.length = n) :
    xs = (List.range n).map (fun i => rd xs i) := by
  refine list_ext_getD 0 _ _ (by simp [h]) (fun j hj => ?_)
  rw [h] at hj
  rw [getD_map_range _ _ _ _ hj]
  rfl

theorem list_sum_eq_sum_rd (xs : List α) (n : Nat) (h : xs.length = n) :
    xs.sum = ∑ i in Finset.range n, rd xs i := by
  conv_lhs => rw [list_eq_map_rd xs n h]
  exact sum_map_range n _

/-- The biases left by `denseBackprop`. -/
theorem denseBackprop_biases (exp : α → α) (denseLayer : DenseLayer α)
    (probs totals x : List α) (width height numFilters label : Nat) (learningRate : α)
    (hb : denseLayer.biases.length = denseLayer.size) :
    (denseBackprop exp denseLayer probs totals x width height numFilters label
        learningRate).1.biases
      = (List.range denseLayer.size).map (fun i =>
          rd denseLayer.biases i
            - learningRate *
                rd (dL_dtotals (dL_dprobs probs denseLayer.size label)
                  (drightProb_dtotals exp totals denseLayer.size label)
                  denseLayer.size label) i) := by
  unfold denseBackprop
  simp only [denseUpdate_split]
  rw [denseUpdate_biases _ _ _ _ hb]
  apply List.map_congr_left
  intro i hi
  have hi' : i < denseLayer.size := List.mem_range.mp hi
  rw [dL_dbiases_eq]
  unfold rd
  rw [getD_map_range _ _ _ _ hi']
  change _ - learningRate * (_ * rd _ i) = _
  rw [dtotals_dbiases_eq]
  unfold rd
  rw [getD_map_range _ _ _ _ hi', mul_one]

/-- The weights left by `denseBackprop`. -/
theorem denseBackprop_weights (exp : α → α) (denseLayer : DenseLayer α)
    (probs totals x : List α) (width height numFilters label : Nat) (learningRate : α)
    (hW : denseLayer.weights.length = denseLayer.size)
    (hrow : ∀ i, i < denseLayer.size →
      (denseLayer.weights.getD i []).length = width * height * numFilters) :
    (denseBackprop exp denseLayer probs totals x width height numFilters label
        learningRate).1.weights
      = (List.range denseLayer.size).map (fun i =>
          (List.range (width * height * numFilters)).map (fun j =>
            rd2 denseLayer.weights i j
              - learningRate *
                  (rd (dL_dtotals (dL_dprobs probs denseLayer.size label)
                    (drightProb_dtotals exp totals denseLayer.size label)
                    denseLayer.size label) i * rd x j))) := by
  unfold denseBackprop
  simp only [denseUpdate_split]
  rw [denseUpdate_weights _ _ _ _ _ hW hrow]
  apply List.map_congr_left
  intro i hi
  have hi' : i < denseLayer.size := List.mem_range.mp hi
  apply List.map_congr_left
  intro j hj
  have hj' : j < width * height * numFilters := List.mem_range.mp hj
  rw [dL_dweights_eq, rd2_table _ _ _ _ _ hi' hj', dtotals_dweights_eq,
    rd2_table _ _ _ _ _ hi' hj']

theorem denseBackprop_size (exp : α → α) (denseLayer : DenseLayer α)
    (probs totals x : List α) (width height numFilters label : Nat) (learningRate : α) :
    (denseBackprop exp denseLayer probs totals x width height numFilters label
        learningRate).1.size = denseLayer.size := by
  unfold denseBackprop
  simp only [denseUpdate_split]

/-- The entries of a softmax output sum to 1. -/
theorem sum_rd_softmax (exp : α → α) (hexp : ∀ x, 0 < exp x) (z : List α) (size : Nat)
    (hsize : 0 < size) :
    ∑ i in Finset.range size, rd (softmax exp z size) i = 1 := by
  have hS : 0 < ∑ j in Finset.range size, exp (rd z j) :=
    Finset.sum_pos (fun j _ => hexp _) ⟨0, Finset.mem_range.mpr hsize⟩
  rw [Finset.sum_congr rfl (fun i hi => rd_softmax exp z size i (Finset.mem_range.mp hi)),
    ← Finset.sum_div]
  exact div_self (ne_of_gt hS)

/-- The fused gradient sums to 0 over the classes. -/
theorem sum_fused_softmax (exp : α → α) (hexp : ∀ x, 0 < exp x) (totals : List α)
    (size label : Nat) (hl : label < size) :
    ∑ i in Finset.range size,
      rd (dL_dtotals (dL_dprobs (softmax exp totals size) size label)
        (drightProb_dtotals exp totals size label) size label) i = 0 := by
  rw [Finset.sum_congr rfl (fun i hi =>
    rd_fused_softmax exp hexp totals size label i hl (Finset.mem_range.mp hi))]
  have h1 : ∀ i ∈ Finset.range size,
      (if i = label then rd (softmax exp totals size) i - 1 else rd (softmax exp totals size) i)
        = rd (softmax exp totals size) i - (if i = label then 1 else 0) := by
    intro i _
    split_ifs <;> simp
  rw [Finset.sum_congr rfl h1, Finset.sum_sub_distrib,
    sum_rd_softmax exp hexp totals size (by omega), Finset.sum_ite_eq' (Finset.range size) label,
    if_pos (Finset.mem_range.mpr hl), sub_self]

/-- A dense step with `probs = softmax(totals)` keeps the sum of the biases. -/
theorem denseBackprop_bias_sum (exp : α → α) (hexp : ∀ x, 0 < exp x)
    (denseLayer : DenseLayer α) (totals x : List α)
    (width height numFilters label : Nat) (learningRate : α)
    (hb : denseLayer.biases.length = denseLayer.size) (hl : label < denseLayer.size) :
    ∑ i in Finset.range denseLayer.size,
        rd (denseBackprop exp denseLayer (softmax exp totals denseLayer.size) totals x
          width height numFilters label learningRate).1.biases i
      = ∑ i in Finset.range denseLayer.size, rd denseLayer.biases i := by
  rw [denseBackprop_biases _ _ _ _ _ _ _ _ _ _ hb]
  rw [Finset.sum_congr rfl (fun i hi => rd_map_range _ _ _ (Finset.mem_range.mp hi))]
  rw [Finset.sum_sub_distrib, ← Finset.mul_sum,
    sum_fused_softmax exp hexp totals _ label hl, mul_zero, sub_zero]

/-- A dense step with `probs = softmax(totals)` keeps every column sum of the weights. -/
theorem denseBackprop_column_sum (exp : α → α) (hexp : ∀ x, 0 < exp x)
    (denseLayer : DenseLayer α) (totals x : List α)
    (width height numFilters label : Nat) (learningRate : α)
    (hW : denseLayer.weights.length = denseLayer.size)
    (hrow : ∀ i, i < denseLayer.size →
      (denseLayer.weights.getD i []).length = width * height * numFilters)
    (hl : label < denseLayer.size) (j : Nat) (hj : j < width * height * numFilters) :
    ∑ i in Finset.range denseLayer.size,
        rd2 (denseBackprop exp denseLayer (softmax exp totals denseLayer.size) totals x
          width height numFilters label learningRate).1.weights i j
      = ∑ i in Finset.range denseLayer.size, rd2 denseLayer.weights i j := by
  rw [denseBackprop_weights _ _ _ _ _ _ _ _ _ _ hW hrow]
  rw [Finset.sum_congr rfl (fun i hi => rd2_table _ _ _ _ _ (Finset.mem_range.mp hi) hj)]
  rw [Finset.sum_sub_distrib, ← Finset.mul_sum, ← Finset.sum_mul,
    sum_fused_softmax exp hexp totals _ label hl, zero_mul, mul_zero, sub_zero]

/-- The logits of the updated layer on the same input. -/
theorem denseForward_after_step (exp : α → α) (denseLayer : DenseLayer α)
    (probs totals x : List α) (width height numFilters label : Nat) (learningRate : α)
    (hW : denseLayer.weights.length = denseLayer.size)
    (hrow : ∀ i, i < denseLayer.size →
      (denseLayer.weights.getD i []).length = width * height * numFilters)
    (hb : denseLayer.biases.length = denseLayer.size) (i : Nat) (hi : i < denseLayer.size) :
    rd (denseForward
        (denseBackprop exp denseLayer probs totals x width height numFilters label
          learningRate).1 x width height numFilters) i
      = rd (denseForward denseLayer x width height numFilters) i
        - learningRate * (1 + ∑ j in Finset.range (width * height * numFilters), rd x j ^ 2)
          * rd (dL_dtotals (dL_dprobs probs denseLayer.size label)
              (drightProb_dtotals exp totals denseLayer.size label)
              denseLayer.size label) i := by
  rw [rd_denseForward _ _ _ _ _ _ (by rw [denseBackprop_size]; exact hi),
    rd_denseForward _ _ _ _ _ _ hi, denseBackprop_weights _ _ _ _ _ _ _ _ _ _ hW hrow,
    denseBackprop_biases _ _ _ _ _ _ _ _ _ _ hb]
  rw [Finset.sum_congr rfl (fun j hj => by
    rw [rd2_table _ _ _ _ _ hi (Finset.mem_range.mp hj)]), rd_map_range _ _ _ hi]
  have key : ∑ j in Finset.range (width * height * numFilters),
      rd x j * (rd2 denseLayer.weights i j - learningRate *
        (rd (dL_dtotals (dL_dprobs probs denseLayer.size label)
          (drightProb_dtotals exp totals denseLayer.size label) denseLayer.size label) i
          * rd x j))
      = ∑ j in Finset.range (width * height * numFilters), rd x j * rd2 denseLayer.weights i j
        - learningRate
          * rd (dL_dtotals (dL_dprobs probs denseLayer.size label)
              (drightProb_dtotals exp totals denseLayer.size label) denseLayer.size label) i
          * ∑ j in Finset.range (width * height * numFilters), rd x j ^ 2 := by
    rw [Finset.mul_sum, ← Finset.sum_sub_distrib]
    exact Finset.sum_congr rfl (fun j _ => by ring)
  rw [key]
  ring

end DenseStepLemmas

section RealStep

/-- Raising the label logit and lowering no other logit does not lower the label's softmax
probability. -/
theorem softmax_label_mono (z z' : List ℝ) (size label : Nat) (hl : label < size)
    (hup : rd z label ≤ rd z' label)
    (hdown : ∀ j, j < size → j ≠ label → rd z' j ≤ rd z j) :
    rd (softmax Real.exp z size) label ≤ rd (softmax Real.exp z' size) label := by
  have hS : 0 < ∑ j in Finset.range size, Real.exp (rd z j) :=
    Finset.sum_pos (fun j _ => Real.exp_pos _) ⟨0, Finset.mem_range.mpr (by omega)⟩
  have hS' : 0 < ∑ j in Finset.range size, Real.exp (rd z' j) :=
    Finset.sum_pos (fun j _ => Real.exp_pos _) ⟨0, Finset.mem_range.mpr (by omega)⟩
  rw [rd_softmax _ _ _ _ hl, rd_softmax _ _ _ _ hl, div_le_div_iff₀ hS hS', Finset.mul_sum,
    Finset.mul_sum]
  apply Finset.sum_le_sum
  intro j hj
  by_cases hjl : j = label
  · rw [hjl, mul_comm]
  · exact mul_le_mul (Real.exp_le_exp.mpr hup)
      (Real.exp_le_exp.mpr (hdown j (Finset.mem_range.mp hj) hjl))
      (le_of_lt (Real.exp_pos _)) (le_of_lt (Real.exp_pos _))

theorem rd_softmax_pos (z : List ℝ) (size i : Nat) (hi : i < size) :
    0 < rd (softmax Real.exp z size) i := by
  have hS : 0 < ∑ j in Finset.range size, Real.exp (rd z j) :=
    Finset.sum_pos (fun j _ => Real.exp_pos _) ⟨0, Finset.mem_range.mpr (by omega)⟩
  rw [rd_softmax _ _ _ _ hi]
  exact div_pos (Real.exp_pos _) hS

theorem rd_softmax_le_one (z : List ℝ) (size i : Nat) (hi : i < size) :
    rd (softmax Real.exp z size) i ≤ 1 := by
  have hS : 0 < ∑ j in Finset.range size, Real.exp (rd z j) :=
    Finset.sum_pos (fun j _ => Real.exp_pos _) ⟨0, Finset.mem_range.mpr (by omega)⟩
  rw [rd_softmax _ _ _ _ hi, div_le_one hS]
  exact Finset.single_le_sum (f := fun j => Real.exp (rd z j))
    (fun j _ => le_of_lt (Real.exp_pos _)) (Finset.mem_range.mpr hi)

/-- The dense layer returned by `backpropagation` is the one `denseBackprop` returns on the
forward values of the step. -/
theorem backpropagation_dense_eq {α : Type} [LinearOrderedField α] [FloorRing α]
    (exp : α → α) (convLayer : ConvLayer α) (denseLayer : DenseLayer α)
    (image : List (List α)) (width height divisor label : Nat) (learningRate : α) :
    (backpropagation exp convLayer denseLayer image width height divisor label
        learningRate).2.1
      = (denseBackprop exp denseLayer
          (softmax exp
            (denseForward denseLayer
              (poolingForward (convolutionForward convLayer image width height divisor)
                ((width - (divisor - 1)) / 2) ((height - (divisor - 1)) / 2)
                convLayer.numFilters)
              ((width - (divisor - 1)) / 2) ((height - (divisor - 1)) / 2)
              convLayer.numFilters) denseLayer.size)
          (denseForward denseLayer
            (poolingForward (convolutionForward convLayer image width height divisor)
              ((width - (divisor - 1)) / 2) ((height - (divisor - 1)) / 2)
              convLayer.numFilters)
            ((width - (divisor - 1)) / 2) ((height - (divisor - 1)) / 2)
            convLayer.numFilters)
          (poolingForward (convolutionForward convLayer image width height divisor)
            ((width - (divisor - 1)) / 2) ((height - (divisor - 1)) / 2)
            convLayer.numFilters)
          ((width - (divisor - 1)) / 2) ((height - (divisor - 1)) / 2)
          convLayer.numFilters label learningRate).1 := rfl

/-- Every dense layer reachable from `initDenseLayer` has `size` biases, and they sum to 0. -/
theorem denseReachable_biases {G : Type} (libc : Libc G) (sqrt log : ℝ → ℝ)
    (denseLayer : DenseLayer ℝ) (h : DenseReachable Real.exp libc sqrt log denseLayer) :
    denseLayer.biases.length = denseLayer.size ∧ denseLayer.biases.sum = 0 := by
  induction h with
  | init fuel size width height numFilters st st' g g' D hinit =>
    have hb := initDenseLayer_biases libc sqrt log fuel size width height numFilters st g _ hinit
    have hb1 : D.size = size := hb.1
    have hb2 : D.biases = malloc size := hb.2
    rw [hb1, hb2]
    exact ⟨length_malloc size, by simp [malloc]⟩
  | step convLayer D image width height divisor label learningRate _ hl ih =>
    rw [backpropagation_dense_eq]
    have hlen : ∀ (probs totals x : List ℝ) (w h nf : Nat),
        (denseBackprop Real.exp D probs totals x w h nf label learningRate).1.biases.length
          = D.size := by
      intro probs totals x w h nf
      rw [denseBackprop_biases _ _ _ _ _ _ _ _ _ _ ih.1]; simp
    refine ⟨by rw [hlen, denseBackprop_size], ?_⟩
    rw [list_sum_eq_sum_rd _ D.size (hlen _ _ _ _ _ _),
      denseBackprop_bias_sum Real.exp Real.exp_pos D _ _ _ _ _ label learningRate ih.1 hl,
      ← list_sum_eq_sum_rd _ D.size ih.1]
    exact ih.2

end RealStep

/-! ## swapEndian -/

section SwapEndianLemmas

theorem testBit_mod32 (x i : Nat) :
    (x % 4294967296).testBit i = (decide (i < 32) && x.testBit i) :=
  Nat.testBit_mod_two_pow x 32 i

theorem testBit_maskHi (j : Nat) :
    Nat.testBit 0xFF00FF00 j = decide ((8 ≤ j ∧ j < 16) ∨ (24 ≤ j ∧ j < 32)) := by
  by_cases hj : j < 32
  · interval_cases j <;> decide
  · have h1 : Nat.testBit 0xFF00FF00 j = false :=
      Nat.testBit_lt_two_pow (lt_of_lt_of_le (by decide : 0xFF00FF00 < 2 ^ 32)
        (Nat.pow_le_pow_right (by decide) (by omega)))
    rw [h1]
    symm
    rw [decide_eq_false_iff_not]
    omega

theorem testBit_maskLo (j : Nat) :
    Nat.testBit 0xFF00FF j = decide (j < 8 ∨ (16 ≤ j ∧ j < 24)) := by
  by_cases hj : j < 32
  · interval_cases j <;> decide
  · have h1 : Nat.testBit 0xFF00FF j = false :=
      Nat.testBit_lt_two_pow (lt_of_lt_of_le (by decide : 0xFF00FF < 2 ^ 32)
        (Nat.pow_le_pow_right (by decide) (by omega)))
    rw [h1]
    symm
    rw [decide_eq_false_iff_not]
    omega

theorem testBit_swapEndian (v i : Nat) :
    (swapEndian v).testBit i
      = (decide (i < 32) && v.testBit (8 * (3 - i / 8) + i % 8)) := by
  unfold swapEndian
  by_cases hi : i < 32
  · interval_cases i <;>
      simp [-Nat.testBit_zero, Nat.testBit_shiftLeft, Nat.testBit_shiftRight, testBit_mod32,
        testBit_maskHi, testBit_maskLo]
  · simp only [Nat.testBit_or, Nat.testBit_shiftRight, testBit_mod32, hi, decide_False,
      Bool.false_and, Bool.false_or, Nat.testBit_and, testBit_maskLo, testBit_maskHi]
    have h1 : ¬ (16 + i < 8 ∨ 16 ≤ 16 + i ∧ 16 + i < 24) := by omega
    have h2 : ¬ (16 + i < 32) := by omega
    simp [h1, h2]
    intro _
    omega

theorem testBit_eq_false_of_lt32 (v i : Nat) (hv : v < 4294967296) (hi : 32 ≤ i) :
    v.testBit i = false := by
  apply Nat.testBit_lt_two_pow
  have h : (2 : Nat) ^ 32 ≤ 2 ^ i := Nat.pow_le_pow_right (by decide) hi
  have h32 : (2 : Nat) ^ 32 = 4294967296 := by decide
  omega

theorem swapEndian_lt (v : Nat) : swapEndian v < 4294967296 := by
  have h32 : (2 : Nat) ^ 32 = 4294967296 := by decide
  rw [← h32]
  apply Nat.lt_pow_two_of_testBit
  intro j hj
  rw [testBit_swapEndian]
  have : ¬ j < 32 := by omega
  simp [this]

theorem swapEndian_swapEndian (v : Nat) (hv : v < 4294967296) :
    swapEndian (swapEndian v) = v := by
  apply Nat.eq_of_testBit_eq
  intro i
  rw [testBit_swapEndian, testBit_swapEndian]
  by_cases hi : i < 32
  · have h1 : 8 * (3 - i / 8) + i % 8 < 32 := by omega
    have h2 : 8 * (3 - (8 * (3 - i / 8) + i % 8) / 8) + (8 * (3 - i / 8) + i % 8) % 8 = i := by
      omega
    rw [h2]
    simp [hi, h1]
  · rw [testBit_eq_false_of_lt32 v i hv (by omega)]
    simp [hi]

theorem testBit_byte_high (b j : Nat) (hb : b < 256) (hj : 8 ≤ j) : b.testBit j = false := by
  apply Nat.testBit_lt_two_pow
  have h : (2 : Nat) ^ 8 ≤ 2 ^ j := Nat.pow_le_pow_right (by decide) hj
  have h8 : (2 : Nat) ^ 8 = 256 := by decide
  omega

theorem shift_add_eq_or (a b k : Nat) (hb : b < 2 ^ k) : a * 2 ^ k + b = a <<< k ||| b := by
  rw [Nat.shiftLeft_eq, Nat.mul_comm a, Nat.mul_add_lt_is_or hb]

/-- Bits of the 32-bit value with bytes `b3 b2 b1 b0` (most significant first). -/
theorem testBit_bytes (b3 b2 b1 b0 i : Nat) (h2 : b2 < 256) (h1 : b1 < 256)
    (h0 : b0 < 256) :
    (b3 * 2 ^ 24 + b2 * 2 ^ 16 + b1 * 2 ^ 8 + b0).testBit i
      = if i < 8 then b0.testBit i
        else if i < 16 then b1.testBit (i - 8)
        else if i < 24 then b2.testBit (i - 16)
        else b3.testBit (i - 24) := by
  have e1 : b1 * 2 ^ 8 + b0 = b1 <<< 8 ||| b0 := shift_add_eq_or b1 b0 8 (by norm_num; omega)
  have e2 : b2 * 2 ^ 16 + (b1 * 2 ^ 8 + b0) = b2 <<< 16 ||| (b1 * 2 ^ 8 + b0) :=
    shift_add_eq_or b2 _ 16 (by norm_num; omega)
  have e3 : b3 * 2 ^ 24 + (b2 * 2 ^ 16 + (b1 * 2 ^ 8 + b0))
      = b3 <<< 24 ||| (b2 * 2 ^ 16 + (b1 * 2 ^ 8 + b0)) :=
    shift_add_eq_or b3 _ 24 (by norm_num; omega)
  rw [Nat.add_assoc, Nat.add_assoc, e3, e2, e1]
  simp only [Nat.testBit_or, Nat.testBit_shiftLeft]
  by_cases c0 : i < 8
  · have n1 : ¬ i ≥ 8 := by omega
    have n2 : ¬ i ≥ 16 := by omega
    have n3 : ¬ i ≥ 24 := by omega
    simp [c0, n1, n2, n3]
  · by_cases c1 : i < 16
    · have n2 : ¬ i ≥ 16 := by omega
      have n3 : ¬ i ≥ 24 := by omega
      have p1 : i ≥ 8 := by omega
      simp [c0, c1, n2, n3, p1, testBit_byte_high b0 i h0 (by omega)]
    · by_cases c2 : i < 24
      · have n3 : ¬ i ≥ 24 := by omega
        have p1 : i ≥ 8 := by omega
        have p2 : i ≥ 16 := by omega
        simp [c0, c1, c2, n3, p1, p2, testBit_byte_high b0 i h0 (by omega),
          testBit_byte_high b1 (i - 8) h1 (by omega)]
      · have p1 : i ≥ 8 := by omega
        have p2 : i ≥ 16 := by omega
        have p3 : i ≥ 24 := by omega
        simp [c0, c1, c2, p1, p2, p3, testBit_byte_high b0 i h0 (by omega),
          testBit_byte_high b1 (i - 8) h1 (by omega),
          testBit_byte_high b2 (i - 16) h2 (by omega)]

/-- `swapEndian` reverses the four bytes. -/
theorem swapEndian_bytes (b3 b2 b1 b0 : Nat) (h3 : b3 < 256) (h2 : b2 < 256) (h1 : b1 < 256)
    (h0 : b0 < 256) :
    swapEndian (b3 * 2 ^ 24 + b2 * 2 ^ 16 + b1 * 2 ^ 8 + b0)
      = b0 * 2 ^ 24 + b1 * 2 ^ 16 + b2 * 2 ^ 8 + b3 := by
  apply Nat.eq_of_testBit_eq
  intro i
  rw [testBit_swapEndian, testBit_bytes _ _ _ _ _ h2 h1 h0,
    testBit_bytes _ _ _ _ _ h1 h2 h3]
  by_cases hi : i < 32
  · interval_cases i <;> simp
  · have hh : ¬ i < 8 ∧ ¬ i < 16 ∧ ¬ i < 24 := by omega
    simp [hi, hh.1, hh.2.1, hh.2.2, testBit_byte_high b0 (i - 24) h0 (by omega)]

end SwapEndianLemmas

/-! ## Checked reads -/

section CheckedLemmas

variable {α : Type} [LinearOrderedField α]

/-- A loop whose body always returns is the plain loop. -/
theorem forLoopM_eq_some {σ : Type} (n : Nat) (bodyM : Nat → σ → Option σ)
    (body : Nat → σ → σ) (s : σ) (h : ∀ i, i < n → ∀ t, bodyM i t = some (body i t)) :
    forLoopM n bodyM s = some (forLoop n body s) := by
  induction n with
  | zero => rfl
  | succ k ih =>
    rw [forLoopM_succ, ih (fun i hi t => h i (Nat.lt_succ_of_lt hi) t), Option.some_bind,
      h k (Nat.lt_succ_self k), forLoop_succ]

theorem getElem?_eq_some_getD {β : Type} (xs : List β) (i : Nat) (d : β) (hi : i < xs.length) :
    xs[i]? = some (xs.getD i d) := by
  rw [List.getD_eq_getElem?_getD, List.getElem?_eq_getElem hi]
  rfl

/-- Under even `width` and `height`, the C index is the channel-major block index and lies
inside the pooled vector. -/
theorem dL_dconvoluted_index_spec (width height numFilters i j k : Nat)
    (hw : Even width) (hh : Even height) (hi : i < width) (hj : j < height)
    (hk : k < numFilters) :
    dL_dconvoluted_index width height i j k
        = k * (width / 2) * (height / 2) + j / 2 * (width / 2) + i / 2 ∧
    dL_dconvoluted_index width height i j k < width / 2 * (height / 2) * numFilters := by
  obtain ⟨a, ha⟩ := hw
  obtain ⟨b, hb⟩ := hh
  have hwa : width / 2 = a := by omega
  have hhb : height / 2 = b := by omega
  have h1 : width / 2 * height / 2 = a * b := by
    rw [hwa, hb, ← Nat.two_mul, Nat.mul_left_comm, Nat.mul_div_cancel_left _ (by decide)]
  have h2 : j / 2 * width / 2 = j / 2 * a := by
    rw [ha, ← Nat.two_mul, Nat.mul_left_comm, Nat.mul_div_cancel_left _ (by decide)]
  unfold dL_dconvoluted_index
  rw [h1, h2, hwa, hhb]
  have hj2 : j / 2 < b := by omega
  have hi2 : i / 2 < a := by omega
  have hr : j / 2 * a + i / 2 < a * b := by
    have : (j / 2 + 1) * a ≤ b * a := Nat.mul_le_mul_right a hj2
    rw [Nat.add_mul, Nat.one_mul, Nat.mul_comm b a] at this
    omega
  refine ⟨by rw [Nat.mul_assoc, Nat.add_assoc], ?_⟩
  have hk2 : (k + 1) * (a * b) ≤ numFilters * (a * b) := Nat.mul_le_mul_right (a * b) hk
  rw [Nat.add_mul, Nat.one_mul] at hk2
  rw [Nat.mul_comm (a * b) numFilters]
  omega

/-- With in-range indices the checked `dL_dconvoluted` returns what the plain one computes. -/
theorem dL_dconvolutedChecked_eq (dL_dpooled : List α) (convolutedImage : List (List α))
    (pooledImage : List α) (width height numFilters : Nat)
    (hidx : ∀ i j k, i < width → j < height → k < numFilters →
      dL_dconvoluted_index width height i j k < pooledImage.length ∧
      dL_dconvoluted_index width height i j k < dL_dpooled.length) :
    dL_dconvolutedChecked dL_dpooled convolutedImage pooledImage width height numFilters
      = some (dL_dconvoluted dL_dpooled convolutedImage pooledImage width height numFilters) := by
  unfold dL_dconvolutedChecked dL_dconvoluted
  refine forLoopM_eq_some _ _ _ _ (fun i hi t => ?_)
  refine forLoopM_eq_some _ _ _ _ (fun j hj t => ?_)
  refine forLoopM_eq_some _ _ _ _ (fun k hk t => ?_)
  obtain ⟨h1, h2⟩ := hidx i j k hi hj hk
  rw [getElem?_eq_some_getD pooledImage _ 0 h1, getElem?_eq_some_getD dL_dpooled _ 0 h2,
    Option.some_bind]
  unfold dL_dconvoluted_index rd
  split_ifs <;> rfl

/-- When the image has `width` rows of at least `height` entries (the layout `convolutionGrid`
indexes), every read succeeds and the checked grid is the plain one. -/
theorem convolutionGridChecked_eq (image : List (List α)) (width height divisor : Nat)
    (hrow : ∀ r, r < width → r < image.length ∧ height ≤ (image.getD r []).length) :
    convolutionGridChecked image width height divisor
      = some (convolutionGrid image width height divisor) := by
  unfold convolutionGridChecked convolutionGrid
  refine forLoopM_eq_some _ _ _ _ (fun i hi t => ?_)
  refine forLoopM_eq_some _ _ _ _ (fun j hj t => ?_)
  have hcell : forLoopM divisor (fun k cell =>
        forLoopM divisor (fun l cell =>
          ((image[i + k]?).bind (fun row => row[j + l]?)).map (fun v =>
            wr cell (k * divisor + l) v)) cell) (malloc (divisor * divisor))
      = some (forLoop divisor (fun k cell =>
        forLoop divisor (fun l cell =>
          wr cell (k * divisor + l) (rd2 image (i + k) (j + l))) cell)
        (malloc (divisor * divisor))) := by
    refine forLoopM_eq_some _ _ _ _ (fun k hk c => ?_)
    refine forLoopM_eq_some _ _ _ _ (fun l hl c => ?_)
    obtain ⟨hr1, hr2⟩ := hrow (i + k) (by omega)
    rw [getElem?_eq_some_getD image _ [] hr1, Option.some_bind,
      getElem?_eq_some_getD (image.getD (i + k) []) _ 0 (by omega)]
    rfl
  simp only []
  rw [hcell]
  rfl

end CheckedLemmas

/-! ## Claims -/

/-- C1: over the reals, for a non-empty logit vector `z`, `softmax(z, size)` with `size` the
length of `z` has `size` entries, entry `i` is `exp z[i] / Σ_j exp z[j]`, every entry is
strictly positive and the entries sum to exactly 1. -/
theorem softmax_is_distribution (z : List ℝ) (hz : z ≠ []) :
    (softmax Real.exp z z.length).length = z.length ∧
    (∀ i, i < z.length → rd (softmax Real.exp z z.length) i
        = Real.exp (rd z i) / ∑ j in Finset.range z.length, Real.exp (rd z j)) ∧
    (∀ i, i < z.length → 0 < rd (softmax Real.exp z z.length) i) ∧
    (softmax Real.exp z z.length).sum = 1 := by
  have hS : 0 < ∑ j in Finset.range z.length, Real.exp (rd z j) :=
    Finset.sum_pos (fun j _ => Real.exp_pos _)
      ⟨0, Finset.mem_range.mpr (List.length_pos.mpr hz)⟩
  refine ⟨length_softmax _ _ _, fun i hi => rd_softmax _ _ _ _ hi, fun i hi => ?_, ?_⟩
  · rw [rd_softmax _ _ _ _ hi]
    exact div_pos (Real.exp_pos _) hS
  · rw [softmax_eq_map, sum_map_range, ← Finset.sum_div]
    exact div_self (ne_of_gt hS)

/-- C1, witness: the logit vector `[0, 1]`. -/
theorem softmax_is_distribution_witness :
    ([0, 1] : List ℝ) ≠ [] ∧
    (∀ i, i < 2 → 0 < rd (softmax Real.exp [0, 1] 2) i) ∧
    (softmax Real.exp ([0, 1] : List ℝ) 2).sum = 1 :=
  ⟨by simp, (softmax_is_distribution [0, 1] (by simp)).2.2⟩

/-- C2: over the reals, for logits `totals`, a label below `size` and `probs = softmax(totals)`,
the gradient `dL_dtotals(dL_dprobs(probs), drightProb_dtotals(totals))` built by `denseBackprop`
has `size` entries, equals `probs[i] - 1` at `i = label` and `probs[i]` elsewhere, and is the
derivative of `-ln(softmax(totals)[label])` in `totals[i]`. -/
theorem fused_gradient_exact (totals : List ℝ) (label : Nat) (hl : label < totals.length) :
    (dL_dtotals (dL_dprobs (softmax Real.exp totals totals.length) totals.length label)
        (drightProb_dtotals Real.exp totals totals.length label) totals.length label).length
      = totals.length ∧
    ∀ i, i < totals.length →
      rd (dL_dtotals (dL_dprobs (softmax Real.exp totals totals.length) totals.length label)
          (drightProb_dtotals Real.exp totals totals.length label) totals.length label) i
        = (if i = label then rd (softmax Real.exp totals totals.length) i - 1
            else rd (softmax Real.exp totals totals.length) i) ∧
      HasDerivAt
        (fun t => loss Real.log (softmax Real.exp (wr totals i t) totals.length) label)
        (rd (dL_dtotals (dL_dprobs (softmax Real.exp totals totals.length) totals.length label)
          (drightProb_dtotals Real.exp totals totals.length label) totals.length label) i)
        (rd totals i) := by
  refine ⟨length_fused _ _ _ _ _, fun i hi => ?_⟩
  have h := rd_fused_softmax Real.exp Real.exp_pos totals totals.length label i hl hi
  refine ⟨h, ?_⟩
  rw [h]
  exact hasDerivAt_loss_logit totals label i hl hi

/-- C2, witness: logits `[0, 1, 2]` with label `1`. -/
theorem fused_gradient_exact_witness :
    1 < ([0, 1, 2] : List ℝ).length ∧
    ∀ i, i < 3 →
      rd (dL_dtotals (dL_dprobs (softmax Real.exp [0, 1, 2] 3) 3 1)
          (drightProb_dtotals Real.exp [0, 1, 2] 3 1) 3 1) i
        = (if i = 1 then rd (softmax Real.exp [0, 1, 2] 3) i - 1
            else rd (softmax Real.exp [0, 1, 2] 3) i) :=
  ⟨by simp, fun i hi => ((fused_gradient_exact [0, 1, 2] 1 (by simp)).2 i hi).1⟩

/-- C3: for every dense layer, input, label and learning rate, the vector `dL_din` returned by
`denseBackprop` has `width*height*numFilters` entries and
`dL_din[j] = Σ_i Wold[i][j] * dLogits[i]`, where `Wold` is the weight matrix of the layer
passed in (the weights before the SGD update) and `dLogits` is the fused gradient. -/
theorem denseBackprop_input_gradient {α : Type} [LinearOrderedField α] (exp : α → α)
    (denseLayer : DenseLayer α) (probs totals pooledImage : List α)
    (width height numFilters label : Nat) (learningRate : α) :
    (denseBackprop exp denseLayer probs totals pooledImage width height numFilters label
        learningRate).2.length = width * height * numFilters ∧
    ∀ j, j < width * height * numFilters →
      rd (denseBackprop exp denseLayer probs totals pooledImage width height numFilters label
          learningRate).2 j
        = ∑ i in Finset.range denseLayer.size,
            rd2 denseLayer.weights i j *
              rd (dL_dtotals (dL_dprobs probs denseLayer.size label)
                (drightProb_dtotals exp totals denseLayer.size label)
                denseLayer.size label) i := by
  unfold denseBackprop
  simp only [dL_dpooled_eq]
  refine ⟨by simp, fun j hj => ?_⟩
  unfold rd
  rw [getD_map_range _ _ _ _ hj]
  apply Finset.sum_congr rfl
  intro i hi
  rw [dtotals_dpooled_eq, rd2_table _ _ _ _ _ (Finset.mem_range.mp hi) hj, mul_comm]

/-- C4: for a dense layer with `size` rows of `width*height*numFilters` weights and `size`
biases, `denseBackprop` leaves `size` and the shape unchanged and sets
`Wnew[i][j] = Wold[i][j] - lr * dLogits[i] * x[j]` and `bnew[i] = bold[i] - lr * dLogits[i]`,
with `dLogits` the fused gradient computed from `probs` and `totals`. -/
theorem denseBackprop_sgd_update {α : Type} [LinearOrderedField α] (exp : α → α)
    (denseLayer : DenseLayer α) (probs totals x : List α)
    (width height numFilters label : Nat) (learningRate : α)
    (hW : denseLayer.weights.length = denseLayer.size)
    (hrow : ∀ i, i < denseLayer.size →
      (denseLayer.weights.getD i []).length = width * height * numFilters)
    (hb : denseLayer.biases.length = denseLayer.size) :
    (denseBackprop exp denseLayer probs totals x width height numFilters label
        learningRate).1.size = denseLayer.size ∧
    (denseBackprop exp denseLayer probs totals x width height numFilters label
        learningRate).1.weights.length = denseLayer.size ∧
    (denseBackprop exp denseLayer probs totals x width height numFilters label
        learningRate).1.biases.length = denseLayer.size ∧
    (∀ i j, i < denseLayer.size → j < width * height * numFilters →
      rd2 (denseBackprop exp denseLayer probs totals x width height numFilters label
          learningRate).1.weights i j
        = rd2 denseLayer.weights i j
          - learningRate *
              rd (dL_dtotals (dL_dprobs probs denseLayer.size label)
                (drightProb_dtotals exp totals denseLayer.size label)
                denseLayer.size label) i * rd x j) ∧
    (∀ i, i < denseLayer.size →
      ((denseBackprop exp denseLayer probs totals x width height numFilters label
          learningRate).1.weights.getD i []).length = width * height * numFilters ∧
      rd (denseBackprop exp denseLayer probs totals x width height numFilters label
          learningRate).1.biases i
        = rd denseLayer.biases i
          - learningRate *
              rd (dL_dtotals (dL_dprobs probs denseLayer.size label)
                (drightProb_dtotals exp totals denseLayer.size label)
                denseLayer.size label) i) := by
  unfold denseBackprop
  simp only [denseUpdate_split]
  rw [denseUpdate_weights _ _ _ _ _ hW hrow, denseUpdate_biases _ _ _ _ hb]
  refine ⟨trivial, by simp, by simp, fun i j hi hj => ?_, fun i hi => ⟨?_, ?_⟩⟩
  · rw [rd2_table _ _ _ _ _ hi hj, dL_dweights_eq, rd2_table _ _ _ _ _ hi hj,
      dtotals_dweights_eq, rd2_table _ _ _ _ _ hi hj, mul_assoc]
  · rw [getD_map_range _ _ _ _ hi]; simp
  · unfold rd
    rw [getD_map_range _ _ _ _ hi, dL_dbiases_eq, getD_map_range _ _ _ _ hi]
    change _ - learningRate * (_ * rd _ i) = _
    rw [dtotals_dbiases_eq]
    unfold rd
    rw [getD_map_range _ _ _ _ hi, mul_one]

/-- C4, witness: a 2-output, 2-input layer over the reals. -/
theorem denseBackprop_sgd_update_witness :
    (denseBackprop Real.exp ⟨2, [0, 0], [[1, 2], [3, 4]]⟩ [1 / 2, 1 / 2] [0, 0] [1, 1]
        1 1 2 0 (1 / 10)).1.size = 2 ∧
    (denseBackprop Real.exp ⟨2, [0, 0], [[1, 2], [3, 4]]⟩ [1 / 2, 1 / 2] [0, 0] [1, 1]
        1 1 2 0 (1 / 10)).1.weights.length = 2 :=
  let h := denseBackprop_sgd_update Real.exp ⟨2, [0, 0], [[1, 2], [3, 4]]⟩
    [1 / 2, 1 / 2] [0, 0] [1, 1] 1 1 2 0 (1 / 10) rfl
    (fun i hi => by
      have hi2 : i < 2 := hi
      interval_cases i <;> rfl)
    rfl
  ⟨h.1, h.2.1⟩

/-- C5: over the reals, for a well-shaped dense layer `(W, b)`, input `x` and valid label, with
`totals = denseForward(W, b, x)` and `probs = softmax(totals)`: the weight gradient that
`denseBackprop` computes and applies, read off its update as `Wold[i][j] - Wnew[i][j]` at
learning rate 1, is the derivative at `W[i][j]` of
`t ↦ loss(softmax(denseForward(W[i][j := t], b, x)), label)`; for every rate the layer returned
by `denseBackprop` has `Wnew[i][j] = Wold[i][j] - lr * dL_dw[i][j]`, where `dL_dw` is the local
of that name, and `dL_dw[i][j]` is that derivative. -/
theorem dense_weight_gradient_is_derivative (denseLayer : DenseLayer ℝ) (x : List ℝ)
    (width height numFilters label i j : Nat)
    (hW : denseLayer.weights.length = denseLayer.size)
    (hrow : ∀ k, k < denseLayer.size →
      (denseLayer.weights.getD k []).length = width * height * numFilters)
    (hl : label < denseLayer.size) (hi : i < denseLayer.size)
    (hj : j < width * height * numFilters) :
    HasDerivAt
      (fun t => loss Real.log
        (softmax Real.exp
          (denseForward { denseLayer with weights := wr2 denseLayer.weights i j t } x
            width height numFilters) denseLayer.size) label)
      (rd2 denseLayer.weights i j
        - rd2 (denseBackprop Real.exp denseLayer
            (softmax Real.exp (denseForward denseLayer x width height numFilters)
              denseLayer.size)
            (denseForward denseLayer x width height numFilters) x width height numFilters
            label 1).1.weights i j)
      (rd2 denseLayer.weights i j) ∧
    (∀ learningRate : ℝ,
      rd2 (denseBackprop Real.exp denseLayer
          (softmax Real.exp (denseForward denseLayer x width height numFilters)
            denseLayer.size)
          (denseForward denseLayer x width height numFilters) x width height numFilters
          label learningRate).1.weights i j
        = rd2 denseLayer.weights i j
          - learningRate *
            rd2 (dL_dweights
              (dL_dtotals
                (dL_dprobs
                  (softmax Real.exp (denseForward denseLayer x width height numFilters)
                    denseLayer.size) denseLayer.size label)
                (drightProb_dtotals Real.exp
                  (denseForward denseLayer x width height numFilters)
                  denseLayer.size label) denseLayer.size label)
              (dtotals_dweights x denseLayer.size width height numFilters)
              denseLayer.size width height numFilters) i j) ∧
    HasDerivAt
      (fun t => loss Real.log
        (softmax Real.exp
          (denseForward { denseLayer with weights := wr2 denseLayer.weights i j t } x
            width height numFilters) denseLayer.size) label)
      (rd2 (dL_dweights
          (dL_dtotals
            (dL_dprobs
              (softmax Real.exp (denseForward denseLayer x width height numFilters)
                denseLayer.size) denseLayer.size label)
            (drightProb_dtotals Real.exp (denseForward denseLayer x width height numFilters)
              denseLayer.size label) denseLayer.size label)
          (dtotals_dweights x denseLayer.size width height numFilters)
          denseLayer.size width height numFilters) i j)
      (rd2 denseLayer.weights i j) := by
  have hG : rd2 (dL_dweights
          (dL_dtotals
            (dL_dprobs
              (softmax Real.exp (denseForward denseLayer x width height numFilters)
                denseLayer.size) denseLayer.size label)
            (drightProb_dtotals Real.exp (denseForward denseLayer x width height numFilters)
              denseLayer.size label) denseLayer.size label)
          (dtotals_dweights x denseLayer.size width height numFilters)
          denseLayer.size width height numFilters) i j
      = (if i = label then
          rd (softmax Real.exp (denseForward denseLayer x width height numFilters)
            denseLayer.size) i - 1
        else
          rd (softmax Real.exp (denseForward denseLayer x width height numFilters)
            denseLayer.size) i) * rd x j := by
    rw [dL_dweights_eq, rd2_table _ _ _ _ _ hi hj, dtotals_dweights_eq,
      rd2_table _ _ _ _ _ hi hj, rd_fused_softmax Real.exp Real.exp_pos _ _ _ _ hl hi]
  have hD := hasDerivAt_loss_weight denseLayer x width height numFilters label i j hW
    (hrow i hi) hl hi hj
  have hU : ∀ learningRate : ℝ,
      rd2 (denseBackprop Real.exp denseLayer
          (softmax Real.exp (denseForward denseLayer x width height numFilters)
            denseLayer.size)
          (denseForward denseLayer x width height numFilters) x width height numFilters
          label learningRate).1.weights i j
        = rd2 denseLayer.weights i j
          - learningRate *
            ((if i = label then
                rd (softmax Real.exp (denseForward denseLayer x width height numFilters)
                  denseLayer.size) i - 1
              else
                rd (softmax Real.exp (denseForward denseLayer x width height numFilters)
                  denseLayer.size) i) * rd x j) := by
    intro learningRate
    rw [denseBackprop_weights _ _ _ _ _ _ _ _ _ _ hW hrow, rd2_table _ _ _ _ _ hi hj,
      rd_fused_softmax Real.exp Real.exp_pos _ _ _ _ hl hi]
  refine ⟨?_, fun learningRate => ?_, ?_⟩
  · rw [hU 1, one_mul, sub_sub_cancel]
    exact hD
  · rw [hU learningRate, hG]
  · rw [hG]
    exact hD

/-- C5, witness: the 2-output, 2-input layer with weights `[[1, 2], [3, 4]]`, biases `[0, 0]`,
input `[1, 1]`, label `0`, weight `W[0][1]`. -/
theorem dense_weight_gradient_is_derivative_witness :
    HasDerivAt
      (fun t => loss Real.log
        (softmax Real.exp
          (denseForward
            { (⟨2, [0, 0], [[1, 2], [3, 4]]⟩ : DenseLayer ℝ) with
              weights := wr2 [[1, 2], [3, 4]] 0 1 t } [1, 1] 1 1 2) 2) 0)
      (rd2 ([[1, 2], [3, 4]] : List (List ℝ)) 0 1
        - rd2 (denseBackprop Real.exp ⟨2, [0, 0], [[1, 2], [3, 4]]⟩
            (softmax Real.exp (denseForward ⟨2, [0, 0], [[1, 2], [3, 4]]⟩ [1, 1] 1 1 2) 2)
            (denseForward ⟨2, [0, 0], [[1, 2], [3, 4]]⟩ [1, 1] 1 1 2) [1, 1] 1 1 2
            0 1).1.weights 0 1)
      (rd2 ([[1, 2], [3, 4]] : List (List ℝ)) 0 1) :=
  (dense_weight_gradient_is_derivative ⟨2, [0, 0], [[1, 2], [3, 4]]⟩ [1, 1] 1 1 2 0 0 1 rfl
    (fun k hk => by
      have hk2 : k < 2 := hk
      interval_cases k <;> rfl)
    (by decide) (by decide) (by decide)).1

/-- C8: for `divisor = 3` (the 3×3 filters of the layer) and an image with `width ≥ 3`,
`height ≥ 3`, `convolutionForward` returns `(width-2)*(height-2)` cells of `numFilters`
activations, and entry `k` of the cell at flat index `i*(height-2)+j` is
`Σ_{a,b<3} image[i+a][j+b] * filters[k][a][b]` (no bias, no nonlinearity). -/
theorem convolutionForward_cross_correlation {α : Type} [LinearOrderedField α]
    (convLayer : ConvLayer α) (image : List (List α)) (width height : Nat)
    (_hw : 3 ≤ width) (_hh : 3 ≤ height) :
    (convolutionForward convLayer image width height 3).length
        = (width - 2) * (height - 2) ∧
    ∀ i j, i < width - 2 → j < height - 2 →
      ((convolutionForward convLayer image width height 3).getD (i * (height - 2) + j)
          []).length = convLayer.numFilters ∧
      ∀ k, k < convLayer.numFilters →
        rd2 (convolutionForward convLayer image width height 3) (i * (height - 2) + j) k
          = ∑ a in Finset.range 3, ∑ b in Finset.range 3,
              rd2 image (i + a) (j + b) * rd3 convLayer.filters k a b := by
  have hF := convolutionForward_spec convLayer image width height 3
  have hG := convolutionGrid_spec image width height 3
  refine ⟨hF.1, fun i j hi hj => ?_⟩
  have hcell := hF.2 i j hi hj
  have hwin := (hG.2 i j hi hj).2
  change (convolutionForward convLayer image width height 3).getD (i * (height - 2) + j) []
    = _ at hcell
  refine ⟨by rw [hcell]; simp, fun k hk => ?_⟩
  unfold rd2
  rw [hcell]
  unfold rd
  rw [getD_map_range _ _ _ _ hk, convolution_eq]
  apply Finset.sum_congr rfl
  intro a ha
  apply Finset.sum_congr rfl
  intro b hb
  rw [hwin a b (Finset.mem_range.mp ha) (Finset.mem_range.mp hb)]
  rfl

/-- C8, witness: a 4×4 image and one filter that picks the top-left element of the window. -/
theorem convolutionForward_cross_correlation_witness :
    3 ≤ 4 ∧
    (convolutionForward
        (⟨1, 3, [[[1, 0, 0], [0, 0, 0], [0, 0, 0]]]⟩ : ConvLayer ℚ)
        [[1, 2, 3, 4], [5, 6, 7, 8], [9, 10, 11, 12], [13, 14, 15, 16]] 4 4 3).length
      = (4 - 2) * (4 - 2) :=
  ⟨by decide,
    (convolutionForward_cross_correlation
      (⟨1, 3, [[[1, 0, 0], [0, 0, 0], [0, 0, 0]]]⟩ : ConvLayer ℚ)
      [[1, 2, 3, 4], [5, 6, 7, 8], [9, 10, 11, 12], [13, 14, 15, 16]] 4 4
      (by decide) (by decide)).1⟩

/-- C6 (code evaluated at the failing input): on the single 2×2 grid `[1, 2, 3, 5]`
(`width = height = 1`, one channel) `poolingForward` returns `[3]`, the maximum of cells
0, 1, 1, 2; cell 3, which holds the block maximum 5, is never read. -/
theorem poolingForward_skips_fourth_cell :
    poolingForward ([[1], [2], [3], [5]] : List (List ℚ)) 1 1 1 = [3] := by
  decide

/-- C7 (code evaluated at the failing input): for the single block `[1, 2, 3, 5]` with
`pooled = poolingForward(grid)` and incoming gradient `[1]`, `dL_dconvoluted` routes the
gradient to cell 2 (value 3), and the cell holding the block maximum 5 receives 0. -/
theorem dL_dconvoluted_misses_block_max :
    dL_dconvoluted [1] ([[1], [2], [3], [5]] : List (List ℚ))
        (poolingForward [[1], [2], [3], [5]] 1 1 1) 2 2 1
      = [[0], [0], [1], [0]] := by
  decide

/-- C9 (code evaluated at the failing input): for a 4×4 image with entries `1..16`, one 3×3
filter and a routed gradient that is 1 on the activation at flat index 1 (the window with
top-left `image[0][1]`), `dL_dfilters` returns `grad[0][x][y] = image[1+x][y]`, so
`grad[0][0][0] = 5`, whereas the sum of the claim, `Σ routedGradient[i*2+j] * image[i][j]`,
is `image[0][1] = 2`. -/
theorem dL_dfilters_transposes_positions :
    dL_dfilters (⟨1, 3, [[[0, 0, 0], [0, 0, 0], [0, 0, 0]]]⟩ : ConvLayer ℚ)
        [[1, 2, 3, 4], [5, 6, 7, 8], [9, 10, 11, 12], [13, 14, 15, 16]]
        [[0], [1], [0], [0]] 2 2
      = [[[5, 6, 7], [9, 10, 11], [13, 14, 15]]] ∧
    (∑ i in Finset.range 2, ∑ j in Finset.range 2,
        rd2 ([[0], [1], [0], [0]] : List (List ℚ)) (i * 2 + j) 0 *
          rd2 [[1, 2, 3, 4], [5, 6, 7, 8], [9, 10, 11, 12], [13, 14, 15, 16]] (i + 0) (j + 0))
      = 2 := by
  constructor
  · simp [dL_dfilters, forLoop, rd, rd2, rd3, wr, wr2, wr3, malloc, mallocPtr, List.replicate]
  · simp [Finset.sum_range_succ, rd, rd2]

set_option maxRecDepth 100000 in
/-- C10 (code evaluated at the failing input): one `backpropagation` step with learning rate
`0.005` on a 4×4 image, the filter `[[1,0,0],[0,0,0],[0,0,0]]` and a 2-class dense layer
leaves the filters unchanged, although the filter gradient of that step is non-zero
(`grad[0][0][0] = -1`), so `filterNew[0][0][0] = 1` and not `1 - 0.005 * (-1)`. -/
theorem backpropagation_filters_frozen :
    (backpropagation Real.exp ⟨1, 3, [[[1, 0, 0], [0, 0, 0], [0, 0, 0]]]⟩
        ⟨2, [-5, 0], [[1], [0]]⟩
        [[1, 2, 3, 4], [5, 6, 7, 8], [9, 10, 11, 12], [13, 14, 15, 16]] 4 4 3 0
        (1 / 200)).1.filters = [[[1, 0, 0], [0, 0, 0], [0, 0, 0]]] ∧
    backpropagation_dL_df Real.exp ⟨1, 3, [[[1, 0, 0], [0, 0, 0], [0, 0, 0]]]⟩
        ⟨2, [-5, 0], [[1], [0]]⟩
        [[1, 2, 3, 4], [5, 6, 7, 8], [9, 10, 11, 12], [13, 14, 15, 16]] 4 4 3 0 (1 / 200)
      = [[[-1, -3 / 2, -2], [-3, -7 / 2, -4], [-5, -11 / 2, -6]]] := by
  constructor
  · rw [backpropagation_conv_small_rate _ _ _ _ _ _ _ _ _ (by norm_num [abs_lt])]
  · norm_num [backpropagation_dL_df, convolutionBackprop_dL_df, convolutionForward,
      convolutionGrid, convolution, poolingForward, tabMax, denseForward, softmax,
      denseBackprop, dL_dpooled, dtotals_dpooled, dL_dtotals, dL_dprobs, drightProb_dtotals,
      dL_dfilters, dL_dconvoluted, forLoop, rd, rd2, rd3, wr, wr2, wr3, malloc, mallocPtr,
      List.replicate]

/-- C13: for a vector `p` read on `size ≥ 1` entries and any integer label,
`accuracy(p, label, size)` is 1 if `label` is the smallest index at which `p` attains its
maximum (first occurrence) and 0 otherwise. -/
theorem accuracy_first_argmax {α : Type} [LinearOrderedField α] (p : List α) (label : Int)
    (size : Nat) (hsize : 1 ≤ size) :
    ((∃ m : Nat, (m : Int) = label ∧ m < size ∧ (∀ j, j < size → rd p j ≤ rd p m) ∧
        (∀ j, j < m → rd p j < rd p m)) → accuracy p label size = 1) ∧
    ((¬ ∃ m : Nat, (m : Int) = label ∧ m < size ∧ (∀ j, j < size → rd p j ≤ rd p m) ∧
        (∀ j, j < m → rd p j < rd p m)) → accuracy p label size = 0) := by
  obtain ⟨hlt, hmax, hfirst⟩ := accuracy_scan p size hsize
  unfold accuracy
  dsimp only
  constructor
  · rintro ⟨m, hm, hmlt, hmmax, hmfirst⟩
    rw [if_pos]
    rw [← hm]
    congr 1
    rcases Nat.lt_trichotomy m (forLoop size
      (fun i (s : α × Nat) => if rd p i > s.1 then (rd p i, i) else s) (rd p 0, 0)).2
      with h | h | h
    · exact absurd (hfirst m h) (not_lt.mpr (hmmax _ hlt))
    · exact h.symm
    · exact absurd (hmfirst _ h) (not_lt.mpr (hmax m hmlt))
  · intro hno
    rw [if_neg]
    intro hidx
    exact hno ⟨_, hidx, hlt, hmax, hfirst⟩

/-- C13, witness: `accuracy([0.1, 0.7, 0.2], 1, 3) = 1` and `accuracy([0.1, 0.7, 0.2], 0, 3) = 0`. -/
theorem accuracy_first_argmax_witness :
    1 ≤ 3 ∧
    accuracy ([1 / 10, 7 / 10, 2 / 10] : List ℚ) 1 3 = 1 ∧
    accuracy ([1 / 10, 7 / 10, 2 / 10] : List ℚ) 0 3 = 0 :=
  ⟨by decide,
    (accuracy_first_argmax ([1 / 10, 7 / 10, 2 / 10] : List ℚ) 1 3 (by decide)).1
      ⟨1, rfl, by decide, fun j hj => by interval_cases j <;> norm_num [rd],
        fun j hj => by interval_cases j; norm_num [rd]⟩,
    by norm_num [accuracy, forLoop, rd]⟩

/-- C11: the probability vector returned by `backpropagation` is the vector `forward` (main.c)
returns for the same image on the layers passed in, i.e. computed with the filters, weights and
biases as they were before the step. -/
theorem backpropagation_returns_forward {α : Type} [LinearOrderedField α] [FloorRing α]
    (exp : α → α) (convLayer : ConvLayer α) (denseLayer : DenseLayer α)
    (image : List (List α)) (width height divisor label : Nat) (learningRate : α) :
    (backpropagation exp convLayer denseLayer image width height divisor label
        learningRate).2.2
      = forward exp convLayer denseLayer image width height divisor ∧
    forward exp convLayer denseLayer image width height divisor
      = softmax exp
          (denseForward denseLayer
            (poolingForward (convolutionForward convLayer image width height divisor)
              ((width - (divisor - 1)) / 2) ((height - (divisor - 1)) / 2)
              convLayer.numFilters)
            ((width - (divisor - 1)) / 2) ((height - (divisor - 1)) / 2)
            convLayer.numFilters)
          denseLayer.size :=
  ⟨rfl, rfl⟩

/-- C14: `denseForward` returns `size` logits with
`logits[i] = b[i] + Σ_j W[i][j] * x[j]`, the sum over `j < width*height*numFilters`; the
function only reads the layer (its result is the logit vector alone). -/
theorem denseForward_affine {α : Type} [LinearOrderedField α] (denseLayer : DenseLayer α)
    (x : List α) (width height numFilters : Nat) :
    (denseForward denseLayer x width height numFilters).length = denseLayer.size ∧
    ∀ i, i < denseLayer.size →
      rd (denseForward denseLayer x width height numFilters) i
        = rd denseLayer.biases i
          + ∑ j in Finset.range (width * height * numFilters),
              rd2 denseLayer.weights i j * rd x j := by
  refine ⟨length_denseForward _ _ _ _ _, fun i hi => ?_⟩
  rw [rd_denseForward _ _ _ _ _ _ hi, add_comm]
  congr 1
  exact Finset.sum_congr rfl (fun j _ => mul_comm _ _)

/-- C15: over the reals, for logits `z` and a label below their number,
`loss(softmax(z), label) = -ln(softmax(z)[label]) = ln(Σ_j exp z[j]) - z[label]`, and this
value is non-negative. -/
theorem loss_softmax_log_sum_exp (z : List ℝ) (label : Nat) (hl : label < z.length) :
    loss Real.log (softmax Real.exp z z.length) label
        = -Real.log (rd (softmax Real.exp z z.length) label) ∧
    loss Real.log (softmax Real.exp z z.length) label
        = Real.log (∑ j in Finset.range z.length, Real.exp (rd z j)) - rd z label ∧
    0 ≤ loss Real.log (softmax Real.exp z z.length) label := by
  refine ⟨rfl, loss_softmax z z.length label hl, ?_⟩
  have hS : 0 < ∑ j in Finset.range z.length, Real.exp (rd z j) :=
    Finset.sum_pos (fun j _ => Real.exp_pos _) ⟨0, Finset.mem_range.mpr (by omega)⟩
  have hle : Real.exp (rd z label) ≤ ∑ j in Finset.range z.length, Real.exp (rd z j) :=
    Finset.single_le_sum (f := fun j => Real.exp (rd z j))
      (fun j _ => le_of_lt (Real.exp_pos _)) (Finset.mem_range.mpr hl)
  unfold loss
  rw [rd_softmax _ _ _ _ hl, neg_nonneg]
  apply Real.log_nonpos (le_of_lt (div_pos (Real.exp_pos _) hS))
  rw [div_le_one hS]
  exact hle

/-- C15, witness: logits `[0, 1, 2]`, label `1`. -/
theorem loss_softmax_log_sum_exp_witness :
    1 < ([0, 1, 2] : List ℝ).length ∧
    0 ≤ loss Real.log (softmax Real.exp ([0, 1, 2] : List ℝ) 3) 1 :=
  ⟨by simp, (loss_softmax_log_sum_exp [0, 1, 2] 1 (by simp)).2.2⟩

/-- C16: for a configured `filterSize ≥ 3`, two convolution layers with the same `numFilters`
and `filterSize` whose filters agree on the entries `filters[k][a][b]` with `a, b < 3` give the
same `convolutionForward` output for every image, width, height and divisor. -/
theorem convolutionForward_reads_3x3 {α : Type} [LinearOrderedField α]
    (convLayer convLayer' : ConvLayer α)
    (hnf : convLayer.numFilters = convLayer'.numFilters)
    (_hfs : convLayer.filterSize = convLayer'.filterSize) (_h3 : 3 ≤ convLayer.filterSize)
    (hag : ∀ k a b, k < convLayer.numFilters → a < 3 → b < 3 →
      rd3 convLayer.filters k a b = rd3 convLayer'.filters k a b)
    (image : List (List α)) (width height divisor : Nat) :
    convolutionForward convLayer image width height divisor
      = convolutionForward convLayer' image width height divisor := by
  unfold convolutionForward
  simp only [← hnf]
  refine forLoop_congr _ _ _ _ (fun i _ t => forLoop_congr _ _ _ _ (fun j _ u =>
    forLoop_congr _ _ _ _ (fun k hk v => ?_)))
  rw [convolution_eq, convolution_eq]
  congr 1
  refine Finset.sum_congr rfl (fun a ha => Finset.sum_congr rfl (fun b hb => ?_))
  have := hag k a b hk (Finset.mem_range.mp ha) (Finset.mem_range.mp hb)
  unfold rd3 at this
  rw [this]

/-- C16, witness: two layers with `filterSize = 4` that differ outside the 3×3 corner. -/
theorem convolutionForward_reads_3x3_witness :
    3 ≤ 4 ∧
    convolutionForward
        (⟨1, 4, [[[1, 2, 3, 0], [4, 5, 6, 0], [7, 8, 9, 0], [0, 0, 0, 0]]]⟩ : ConvLayer ℚ)
        [[1, 2, 3, 4], [5, 6, 7, 8], [9, 10, 11, 12], [13, 14, 15, 16]] 4 4 4
      = convolutionForward
        (⟨1, 4, [[[1, 2, 3, 7], [4, 5, 6, 7], [7, 8, 9, 7], [7, 7, 7, 7]]]⟩ : ConvLayer ℚ)
        [[1, 2, 3, 4], [5, 6, 7, 8], [9, 10, 11, 12], [13, 14, 15, 16]] 4 4 4 :=
  ⟨by decide,
    convolutionForward_reads_3x3
      (⟨1, 4, [[[1, 2, 3, 0], [4, 5, 6, 0], [7, 8, 9, 0], [0, 0, 0, 0]]]⟩ : ConvLayer ℚ)
      (⟨1, 4, [[[1, 2, 3, 7], [4, 5, 6, 7], [7, 8, 9, 7], [7, 7, 7, 7]]]⟩ : ConvLayer ℚ)
      rfl rfl (by decide)
      (fun k a b hk ha hb => by
        have hk1 : k < 1 := hk
        interval_cases k
        interval_cases a <;> interval_cases b <;> simp [rd3, rd2, rd])
      [[1, 2, 3, 4], [5, 6, 7, 8], [9, 10, 11, 12], [13, 14, 15, 16]] 4 4 4⟩
/-- C17: over the reals, for every learning rate with `|lr| < 1` (such as the `0.005` of
`main`), every layer pair, image and label, `backpropagation` returns the convolution layer
unchanged; in general the rate that multiplies the filter gradient is `lr` converted to `int`
(truncated toward zero). -/
theorem backpropagation_freezes_filters (convLayer : ConvLayer ℝ) (denseLayer : DenseLayer ℝ)
    (image : List (List ℝ)) (width height divisor label : Nat) (learningRate : ℝ)
    (h : |learningRate| < 1) :
    (backpropagation Real.exp convLayer denseLayer image width height divisor label
        learningRate).1.filters = convLayer.filters ∧
    (backpropagation Real.exp convLayer denseLayer image width height divisor label
        learningRate).1 = convLayer ∧
    doubleToInt learningRate = 0 ∧
    (backpropagation Real.exp convLayer denseLayer image width height divisor label
        learningRate).1
      = convUpdate convLayer
          (backpropagation_dL_df Real.exp convLayer denseLayer image width height divisor
            label learningRate)
          (doubleToInt learningRate) := by
  have h1 := backpropagation_conv_small_rate Real.exp convLayer denseLayer image width height
    divisor label learningRate h
  exact ⟨by rw [h1], h1, doubleToInt_eq_zero learningRate h, backpropagation_conv_eq _ _ _ _ _ _ _ _ _⟩

/-- C17, witness: the rate `0.005` passed by `main`. -/
theorem backpropagation_freezes_filters_witness :
    |(1 / 200 : ℝ)| < 1 ∧
    (backpropagation Real.exp ⟨1, 3, [[[1, 0, 0], [0, 0, 0], [0, 0, 0]]]⟩
        ⟨2, [-5, 0], [[1], [0]]⟩
        [[1, 2, 3, 4], [5, 6, 7, 8], [9, 10, 11, 12], [13, 14, 15, 16]] 4 4 3 1
        (1 / 200)).1.filters = [[[1, 0, 0], [0, 0, 0], [0, 0, 0]]] :=
  ⟨by norm_num [abs_lt],
    (backpropagation_freezes_filters ⟨1, 3, [[[1, 0, 0], [0, 0, 0], [0, 0, 0]]]⟩
      ⟨2, [-5, 0], [[1], [0]]⟩
      [[1, 2, 3, 4], [5, 6, 7, 8], [9, 10, 11, 12], [13, 14, 15, 16]] 4 4 3 1 (1 / 200)
      (by norm_num [abs_lt])).1⟩

/-- C20: for `width, height ≥ 1`, two input grids of `4*width*height` cells that agree on the
cells with flat index below `2*width*height + width` have the same `poolingForward` result:
the other `2*width*height - width` cells never influence it. -/
theorem poolingForward_reads_prefix {α : Type} [LinearOrderedField α]
    (input input' : List (List α)) (width height numFilters : Nat)
    (_hw : 1 ≤ width) (_hh : 1 ≤ height)
    (_hlen : input.length = 4 * width * height) (_hlen' : input'.length = 4 * width * height)
    (h : ∀ p, p < 2 * width * height + width → input.getD p [] = input'.getD p []) :
    poolingForward input width height numFilters
      = poolingForward input' width height numFilters :=
  poolingForward_congr input input' width height numFilters h

/-- C20, witness: two 2×2 grids that differ in the last cell only. -/
theorem poolingForward_reads_prefix_witness :
    poolingForward ([[1], [2], [3], [5]] : List (List ℚ)) 1 1 1
      = poolingForward ([[1], [2], [3], [9]] : List (List ℚ)) 1 1 1 :=
  poolingForward_reads_prefix _ _ 1 1 1 (by decide) (by decide) rfl rfl
    (fun p hp => by
      have hp3 : p < 3 := hp
      interval_cases p <;> rfl)

/-- C12 (counterexample): with the C standard's sample `rand`, seed 1 and
`(numFilters, filterSize) = (1, 1)`, the first `initConvLayer` call of a process (statics
`hasSpare = 0`) draws one pair, stores `u·s` and caches `v·s`; the second call, made after
re-seeding with the same seed, returns the cached `v·s` instead of drawing, and the two filter
tensors differ. -/
theorem initConvLayer_reseeded_differs :
    ∃ r1 r2 : ConvLayer ℝ × BoxMullerState ℝ × Nat,
      initConvLayer stdLibc Real.sqrt Real.log 1 1 1 ⟨false, 0⟩ (stdLibc.srand 1) = some r1 ∧
      initConvLayer stdLibc Real.sqrt Real.log 1 1 1 r1.2.1 (stdLibc.srand 1) = some r2 ∧
      r1.1.filters ≠ r2.1.filters := by
  have hs : (0 : ℝ) < Real.sqrt
      (-2 * Real.log (452431282 / 1073676289) / (452431282 / 1073676289)) := by
    apply Real.sqrt_pos.mpr
    apply div_pos _ (by norm_num)
    have : Real.log (452431282 / 1073676289) < 0 :=
      Real.log_neg (by norm_num) (by norm_num)
    linarith
  have h2 : (0 : ℝ) < Real.sqrt (2 / (1 * 1)) := Real.sqrt_pos.mpr (by norm_num)
  refine ⟨(⟨1, 1, [[[909 / 32767
      * Real.sqrt (-2 * Real.log (452431282 / 1073676289) / (452431282 / 1073676289))
      * Real.sqrt (2 / (1 * 1))]]]⟩,
      ⟨true, -21251 / 32767
        * Real.sqrt (-2 * Real.log (452431282 / 1073676289) / (452431282 / 1073676289))⟩,
      2524885223),
    (⟨1, 1, [[[-21251 / 32767
      * Real.sqrt (-2 * Real.log (452431282 / 1073676289) / (452431282 / 1073676289))
      * Real.sqrt (2 / (1 * 1))]]]⟩,
      ⟨false, -21251 / 32767
        * Real.sqrt (-2 * Real.log (452431282 / 1073676289) / (452431282 / 1073676289))⟩,
      1), ?_, ?_, ?_⟩
  · norm_num [initConvLayer, forLoopM, convBoxMuller, boxMullerLoop, stdLibc, wr, wr2, wr3,
      malloc, mallocPtr, List.replicate]
  · norm_num [initConvLayer, forLoopM, convBoxMuller, boxMullerLoop, stdLibc, wr, wr2, wr3,
      malloc, mallocPtr, List.replicate]
  · intro h
    simp only [List.cons.injEq, and_true] at h
    have hpos : (0 : ℝ) < 909 / 32767
        * Real.sqrt (-2 * Real.log (452431282 / 1073676289) / (452431282 / 1073676289))
        * Real.sqrt (2 / (1 * 1)) := by positivity
    have hneg : -21251 / 32767
        * Real.sqrt (-2 * Real.log (452431282 / 1073676289) / (452431282 / 1073676289))
        * Real.sqrt (2 / (1 * 1)) < 0 := by
      have : (0 : ℝ) < 21251 / 32767
          * Real.sqrt (-2 * Real.log (452431282 / 1073676289) / (452431282 / 1073676289))
          * Real.sqrt (2 / (1 * 1)) := by positivity
      linarith
    linarith

/-- C12 (amended): for every generator, seed, fuel and sizes, if the number of entries
(`numFilters * filterSize * filterSize`, resp. `size * (width * height * numFilters)`) is even
and the first call starts with the sampler's `hasSpare` flag clear (as at process start), then
a second call made after re-seeding with the same seed returns the same layer as the first. -/
theorem init_reseeded_same_of_even {α : Type} [LinearOrderedField α] {G : Type}
    (libc : Libc G) (sqrt log : α → α) (fuel seed : Nat) :
    (∀ (numFilters filterSize : Nat) (st st1 : BoxMullerState α) (g1 : G)
        (layer : ConvLayer α),
      st.hasSpare = false → Even (numFilters * filterSize * filterSize) →
      initConvLayer libc sqrt log fuel numFilters filterSize st (libc.srand seed)
        = some (layer, st1, g1) →
      ∃ st2 g2, initConvLayer libc sqrt log fuel numFilters filterSize st1 (libc.srand seed)
        = some (layer, st2, g2)) ∧
    (∀ (size width height numFilters : Nat) (st st1 : BoxMullerState α) (g1 : G)
        (layer : DenseLayer α),
      st.hasSpare = false → Even (size * (width * height * numFilters)) →
      initDenseLayer libc sqrt log fuel size width height numFilters st (libc.srand seed)
        = some (layer, st1, g1) →
      ∃ st2 g2,
        initDenseLayer libc sqrt log fuel size width height numFilters st1 (libc.srand seed)
          = some (layer, st2, g2)) := by
  constructor
  · intro numFilters filterSize st st1 g1 layer hst heven h
    have hflag := initConvLayer_flag libc sqrt log fuel numFilters filterSize st _ _ h
    have hb : Nat.bodd (numFilters * (filterSize * (filterSize * 1))) = false := by
      apply bodd_of_even
      rw [Nat.mul_one, ← Nat.mul_assoc]
      exact heven
    rw [hst, hb] at hflag
    have hsame : st.same st1 := ⟨by rw [hst]; exact hflag.symm, fun hh => by
      rw [hst] at hh; exact absurd hh (by decide)⟩
    have hrel := initConvLayer_same libc sqrt log fuel numFilters filterSize st st1
      (libc.srand seed) hsame
    rw [h] at hrel
    obtain ⟨b, hb2, hab⟩ := optionRel_some_left _ _ _ hrel
    have hl : layer = b.1 := hab.1
    exact ⟨b.2.1, b.2.2, by rw [hb2, hl]⟩
  · intro size width height numFilters st st1 g1 layer hst heven h
    have hflag := initDenseLayer_flag libc sqrt log fuel size width height numFilters st _ _ h
    have hb : Nat.bodd (size * (width * height * numFilters * 1)) = false := by
      apply bodd_of_even
      rw [Nat.mul_one]
      exact heven
    rw [hst, hb] at hflag
    have hsame : st.same st1 := ⟨by rw [hst]; exact hflag.symm, fun hh => by
      rw [hst] at hh; exact absurd hh (by decide)⟩
    have hrel := initDenseLayer_same libc sqrt log fuel size width height numFilters st st1
      (libc.srand seed) hsame
    rw [h] at hrel
    obtain ⟨b, hb2, hab⟩ := optionRel_some_left _ _ _ hrel
    have hl : layer = b.1 := hab.1
    exact ⟨b.2.1, b.2.2, by rw [hb2, hl]⟩

/-- C12 (amended), witness: `initConvLayer(2, 1)` with the C standard's sample `rand` and
seed 1 returns a layer, and the re-seeded second call returns the same layer. -/
theorem init_reseeded_same_of_even_witness :
    ∃ (layer : ConvLayer ℝ) (st1 st2 : BoxMullerState ℝ) (g1 g2 : Nat),
      initConvLayer stdLibc Real.sqrt Real.log 1 2 1 ⟨false, 0⟩ (stdLibc.srand 1)
        = some (layer, st1, g1) ∧
      initConvLayer stdLibc Real.sqrt Real.log 1 2 1 st1 (stdLibc.srand 1)
        = some (layer, st2, g2) := by
  have h1 : initConvLayer stdLibc Real.sqrt Real.log 1 2 1 ⟨false, 0⟩ (stdLibc.srand 1)
      = some (⟨2, 1, [[[909 / 32767
          * Real.sqrt (-2 * Real.log (452431282 / 1073676289) / (452431282 / 1073676289))
          * Real.sqrt (2 / (1 * 1))]],
        [[-21251 / 32767
          * Real.sqrt (-2 * Real.log (452431282 / 1073676289) / (452431282 / 1073676289))
          * Real.sqrt (2 / (1 * 1))]]]⟩,
        ⟨false, -21251 / 32767
          * Real.sqrt (-2 * Real.log (452431282 / 1073676289) / (452431282 / 1073676289))⟩,
        2524885223) := by
    norm_num [initConvLayer, forLoopM, convBoxMuller, boxMullerLoop, stdLibc, wr, wr2, wr3,
      malloc, mallocPtr, List.replicate]
  obtain ⟨st2, g2, h2⟩ := (init_reseeded_same_of_even stdLibc Real.sqrt Real.log 1 1).1
    2 1 ⟨false, 0⟩ _ _ _ rfl (by decide) h1
  exact ⟨_, _, st2, _, g2, h1, h2⟩

/-- C18: over the reals, one `backpropagation` step with a valid label keeps the sum of the
dense biases and, for a well-shaped weight matrix, every column sum `Σ_i W[i][j]`; hence in
every state reachable from `initDenseLayer` (all biases 0) by training steps the dense biases
sum to 0. -/
theorem dense_sums_preserved {G : Type} (libc : Libc G) (sqrt log : ℝ → ℝ) :
    (∀ (convLayer : ConvLayer ℝ) (denseLayer : DenseLayer ℝ) (image : List (List ℝ))
        (width height divisor label : Nat) (learningRate : ℝ),
      label < denseLayer.size → denseLayer.biases.length = denseLayer.size →
      ∑ i in Finset.range denseLayer.size,
          rd (backpropagation Real.exp convLayer denseLayer image width height divisor label
            learningRate).2.1.biases i
        = ∑ i in Finset.range denseLayer.size, rd denseLayer.biases i) ∧
    (∀ (convLayer : ConvLayer ℝ) (denseLayer : DenseLayer ℝ) (image : List (List ℝ))
        (width height divisor label : Nat) (learningRate : ℝ) (j : Nat),
      label < denseLayer.size → denseLayer.weights.length = denseLayer.size →
      (∀ i, i < denseLayer.size → (denseLayer.weights.getD i []).length
        = (width - (divisor - 1)) / 2 * ((height - (divisor - 1)) / 2)
            * convLayer.numFilters) →
      j < (width - (divisor - 1)) / 2 * ((height - (divisor - 1)) / 2)
            * convLayer.numFilters →
      ∑ i in Finset.range denseLayer.size,
          rd2 (backpropagation Real.exp convLayer denseLayer image width height divisor label
            learningRate).2.1.weights i j
        = ∑ i in Finset.range denseLayer.size, rd2 denseLayer.weights i j) ∧
    (∀ denseLayer : DenseLayer ℝ, DenseReachable Real.exp libc sqrt log denseLayer →
      denseLayer.biases.sum = 0) := by
  refine ⟨?_, ?_, fun D hD => (denseReachable_biases libc sqrt log D hD).2⟩
  · intro convLayer denseLayer image width height divisor label learningRate hl hb
    rw [backpropagation_dense_eq]
    exact denseBackprop_bias_sum Real.exp Real.exp_pos denseLayer _ _ _ _ _ label
      learningRate hb hl
  · intro convLayer denseLayer image width height divisor label learningRate j hl hW hrow hj
    rw [backpropagation_dense_eq]
    exact denseBackprop_column_sum Real.exp Real.exp_pos denseLayer _ _ _ _ _ label
      learningRate hW hrow hl j hj

/-- C18, witness: the dense layer built by `initDenseLayer(2, 1, 1, 1)` (C standard's sample
`rand`, seed 1) and then trained for one step is reachable, and its biases sum to 0. -/
theorem dense_sums_preserved_witness :
    (backpropagation Real.exp ⟨1, 3, [[[1, 0, 0], [0, 0, 0], [0, 0, 0]]]⟩
        ⟨2, [0, 0],
          [[909 / 32767
              * Real.sqrt (-2 * Real.log (452431282 / 1073676289) / (452431282 / 1073676289))
              * Real.sqrt (2 / (1 * 1 * 1))],
            [-21251 / 32767
              * Real.sqrt (-2 * Real.log (452431282 / 1073676289) / (452431282 / 1073676289))
              * Real.sqrt (2 / (1 * 1 * 1))]]⟩
        [[1, 2, 3, 4], [5, 6, 7, 8], [9, 10, 11, 12], [13, 14, 15, 16]] 4 4 3 0
        (1 / 200)).2.1.biases.sum = 0 := by
  have hinit : initDenseLayer stdLibc Real.sqrt Real.log 1 2 1 1 1 ⟨false, 0⟩ (stdLibc.srand 1)
      = some (⟨2, [0, 0],
          [[909 / 32767
              * Real.sqrt (-2 * Real.log (452431282 / 1073676289) / (452431282 / 1073676289))
              * Real.sqrt (2 / (1 * 1 * 1))],
            [-21251 / 32767
              * Real.sqrt (-2 * Real.log (452431282 / 1073676289) / (452431282 / 1073676289))
              * Real.sqrt (2 / (1 * 1 * 1))]]⟩,
        ⟨false, -21251 / 32767
          * Real.sqrt (-2 * Real.log (452431282 / 1073676289) / (452431282 / 1073676289))⟩,
        2524885223) := by
    norm_num [initDenseLayer, forLoopM, denseBoxMuller, boxMullerLoop, stdLibc, wr, wr2,
      malloc, mallocPtr, List.replicate]
  exact (dense_sums_preserved stdLibc Real.sqrt Real.log).2.2 _
    (DenseReachable.step ⟨1, 3, [[[1, 0, 0], [0, 0, 0], [0, 0, 0]]]⟩ _
      [[1, 2, 3, 4], [5, 6, 7, 8], [9, 10, 11, 12], [13, 14, 15, 16]] 4 4 3 0 (1 / 200)
      (DenseReachable.init 1 2 1 1 1 ⟨false, 0⟩ _ (stdLibc.srand 1) _ _ hinit) (by decide))

/-- C19: over the reals, for a well-shaped dense layer, input `x`, valid label and rate
`lr ≥ 0`, with `totals = denseForward(layer, x)` and `probs = softmax(totals)`: after
`denseBackprop` the logits on the same `x` are
`totals[i] - lr * (1 + Σ_j x[j]^2) * dLogits[i]`, the probability of the label does not
decrease and the loss does not increase. -/
theorem dense_step_improves_label (denseLayer : DenseLayer ℝ) (x : List ℝ)
    (width height numFilters label : Nat) (learningRate : ℝ) (hlr : 0 ≤ learningRate)
    (hW : denseLayer.weights.length = denseLayer.size)
    (hrow : ∀ i, i < denseLayer.size →
      (denseLayer.weights.getD i []).length = width * height * numFilters)
    (hb : denseLayer.biases.length = denseLayer.size) (hl : label < denseLayer.size) :
    (∀ i, i < denseLayer.size →
      rd (denseForward
          (denseBackprop Real.exp denseLayer
            (softmax Real.exp (denseForward denseLayer x width height numFilters)
              denseLayer.size)
            (denseForward denseLayer x width height numFilters) x width height numFilters
            label learningRate).1 x width height numFilters) i
        = rd (denseForward denseLayer x width height numFilters) i
          - learningRate
            * (1 + ∑ j in Finset.range (width * height * numFilters), rd x j ^ 2)
            * rd (dL_dtotals
                (dL_dprobs
                  (softmax Real.exp (denseForward denseLayer x width height numFilters)
                    denseLayer.size) denseLayer.size label)
                (drightProb_dtotals Real.exp (denseForward denseLayer x width height numFilters)
                  denseLayer.size label) denseLayer.size label) i) ∧
    rd (softmax Real.exp (denseForward denseLayer x width height numFilters) denseLayer.size)
        label
      ≤ rd (softmax Real.exp
          (denseForward
            (denseBackprop Real.exp denseLayer
              (softmax Real.exp (denseForward denseLayer x width height numFilters)
                denseLayer.size)
              (denseForward denseLayer x width height numFilters) x width height numFilters
              label learningRate).1 x width height numFilters) denseLayer.size) label ∧
    loss Real.log
        (softmax Real.exp
          (denseForward
            (denseBackprop Real.exp denseLayer
              (softmax Real.exp (denseForward denseLayer x width height numFilters)
                denseLayer.size)
              (denseForward denseLayer x width height numFilters) x width height numFilters
              label learningRate).1 x width height numFilters) denseLayer.size) label
      ≤ loss Real.log
          (softmax Real.exp (denseForward denseLayer x width height numFilters)
            denseLayer.size) label := by
  have hstep := fun i hi => denseForward_after_step Real.exp denseLayer
    (softmax Real.exp (denseForward denseLayer x width height numFilters) denseLayer.size)
    (denseForward denseLayer x width height numFilters) x width height numFilters label
    learningRate hW hrow hb i hi
  have hc : 0 ≤ learningRate
      * (1 + ∑ j in Finset.range (width * height * numFilters), rd x j ^ 2) :=
    mul_nonneg hlr (add_nonneg zero_le_one (Finset.sum_nonneg (fun j _ => sq_nonneg _)))
  have hmono := softmax_label_mono (denseForward denseLayer x width height numFilters)
    (denseForward
      (denseBackprop Real.exp denseLayer
        (softmax Real.exp (denseForward denseLayer x width height numFilters) denseLayer.size)
        (denseForward denseLayer x width height numFilters) x width height numFilters
        label learningRate).1 x width height numFilters) denseLayer.size label hl
    (by
      rw [hstep label hl, rd_fused_softmax Real.exp Real.exp_pos _ _ _ _ hl hl, if_pos rfl]
      have := rd_softmax_le_one (denseForward denseLayer x width height numFilters)
        denseLayer.size label hl
      nlinarith)
    (fun j hj hjl => by
      rw [hstep j hj, rd_fused_softmax Real.exp Real.exp_pos _ _ _ _ hl hj, if_neg hjl]
      have := rd_softmax_pos (denseForward denseLayer x width height numFilters)
        denseLayer.size j hj
      nlinarith)
  refine ⟨hstep, hmono, ?_⟩
  unfold loss
  exact neg_le_neg (Real.log_le_log (rd_softmax_pos _ _ _ hl) hmono)

/-- C19, witness: a 2-output, 2-input layer, input `[1, 1]`, label `0`, rate `1/10`. -/
theorem dense_step_improves_label_witness :
    (0 : ℝ) ≤ 1 / 10 ∧
    loss Real.log
        (softmax Real.exp
          (denseForward
            (denseBackprop Real.exp ⟨2, [0, 0], [[1, 2], [3, 4]]⟩
              (softmax Real.exp (denseForward ⟨2, [0, 0], [[1, 2], [3, 4]]⟩ [1, 1] 1 1 2) 2)
              (denseForward ⟨2, [0, 0], [[1, 2], [3, 4]]⟩ [1, 1] 1 1 2) [1, 1] 1 1 2
              0 (1 / 10)).1 [1, 1] 1 1 2) 2) 0
      ≤ loss Real.log
          (softmax Real.exp (denseForward ⟨2, [0, 0], [[1, 2], [3, 4]]⟩ [1, 1] 1 1 2) 2) 0 :=
  ⟨by norm_num,
    (dense_step_improves_label ⟨2, [0, 0], [[1, 2], [3, 4]]⟩ [1, 1] 1 1 2 0 (1 / 10)
      (by norm_num) rfl
      (fun i hi => by
        have hi2 : i < 2 := hi
        interval_cases i <;> rfl)
      rfl (by decide)).2.2⟩

/-- C21 (code evaluated at the failing input): for a 4-wide, 3-high image laid out by
`readImage` (3 rows of 4 entries) and `divisor = 3`, `convolutionForward` reads
`image[i + k][j + l]` with `i + k` up to `width - 1 = 3`, but the image has only the rows
`0..2`: the read of `image[3]` fails and the checked function returns `none`. -/
theorem convolutionForward_reads_past_rows :
    (readImage [1, 2, 3, 4, 5, 6, 7, 8, 9, 10, 11, 12] 4 3 : List (List ℚ)).length = 3 ∧
    (readImage [1, 2, 3, 4, 5, 6, 7, 8, 9, 10, 11, 12] 4 3 : List (List ℚ))[3]? = none ∧
    convolutionForwardChecked (⟨1, 3, [[[1, 0, 0], [0, 0, 0], [0, 0, 0]]]⟩ : ConvLayer ℚ)
        (readImage [1, 2, 3, 4, 5, 6, 7, 8, 9, 10, 11, 12] 4 3) 4 3 3 = none := by
  refine ⟨?_, ?_, ?_⟩
  · simp [readImage, forLoop, rd, wr, wr2, malloc, mallocPtr, List.replicate]
  · simp [readImage, forLoop, rd, wr, wr2, malloc, mallocPtr, List.replicate]
  · simp [convolutionForwardChecked, convolutionGridChecked, readImage, forLoopM, forLoop, rd,
      wr, wr2, malloc, mallocPtr, List.replicate]

/-- C22: for even `width` and `height` (both at least 2), every index
`k*(width/2*height/2) + (j/2*width/2 + i/2)` that `dL_dconvoluted` computes for `i < width`,
`j < height`, `k < numFilters` equals `k*(width/2)*(height/2) + (j/2)*(width/2) + i/2` and is
below `(width/2)*(height/2)*numFilters`; with `pooledImage` and `dL_dpooled` of that length no
read of them is out of range (the checked function returns the result of the plain one). -/
theorem dL_dconvoluted_index_in_range {α : Type} [LinearOrderedField α]
    (dL_dpooled : List α) (convolutedImage : List (List α)) (pooledImage : List α)
    (width height numFilters : Nat) (hw : Even width) (hh : Even height)
    (_hw2 : 2 ≤ width) (_hh2 : 2 ≤ height)
    (hp : pooledImage.length = width / 2 * (height / 2) * numFilters)
    (hg : dL_dpooled.length = width / 2 * (height / 2) * numFilters) :
    (∀ i j k, i < width → j < height → k < numFilters →
      dL_dconvoluted_index width height i j k
          = k * (width / 2) * (height / 2) + j / 2 * (width / 2) + i / 2 ∧
      dL_dconvoluted_index width height i j k < width / 2 * (height / 2) * numFilters) ∧
    dL_dconvolutedChecked dL_dpooled convolutedImage pooledImage width height numFilters
      = some (dL_dconvoluted dL_dpooled convolutedImage pooledImage width height numFilters) := by
  have hidx := fun i j k (hi : i < width) (hj : j < height) (hk : k < numFilters) =>
    dL_dconvoluted_index_spec width height numFilters i j k hw hh hi hj hk
  refine ⟨hidx, dL_dconvolutedChecked_eq _ _ _ _ _ _ (fun i j k hi hj hk => ?_)⟩
  rw [hp, hg]
  exact ⟨(hidx i j k hi hj hk).2, (hidx i j k hi hj hk).2⟩

/-- C22, witness: a 2×2 grid with one channel. -/
theorem dL_dconvoluted_index_in_range_witness :
    Even 2 ∧
    dL_dconvolutedChecked [1] ([[1], [2], [3], [5]] : List (List ℚ)) [3] 2 2 1
      = some (dL_dconvoluted [1] [[1], [2], [3], [5]] [3] 2 2 1) :=
  ⟨by decide,
    (dL_dconvoluted_index_in_range [1] ([[1], [2], [3], [5]] : List (List ℚ)) [3] 2 2 1
      (by decide) (by decide) (by decide) (by decide) rfl rfl).2⟩

/-- C23: on 32-bit values `swapEndian` maps the value with bytes `b3 b2 b1 b0` (most
significant first) to the value with bytes `b0 b1 b2 b3`, its result is again a 32-bit value,
and `swapEndian(swapEndian(v)) = v` for every 32-bit `v`. -/
theorem swapEndian_reverses_bytes :
    (∀ b3 b2 b1 b0 : Nat, b3 < 256 → b2 < 256 → b1 < 256 → b0 < 256 →
      swapEndian (b3 * 2 ^ 24 + b2 * 2 ^ 16 + b1 * 2 ^ 8 + b0)
        = b0 * 2 ^ 24 + b1 * 2 ^ 16 + b2 * 2 ^ 8 + b3) ∧
    (∀ v : Nat, swapEndian v < 2 ^ 32) ∧
    (∀ v : Nat, v < 2 ^ 32 → swapEndian (swapEndian v) = v) :=
  ⟨fun b3 b2 b1 b0 h3 h2 h1 h0 => swapEndian_bytes b3 b2 b1 b0 h3 h2 h1 h0,
    fun v => swapEndian_lt v, fun v hv => swapEndian_swapEndian v hv⟩

/-- C23, witness: the IDX image magic number `0x00000803`. -/
theorem swapEndian_reverses_bytes_witness :
    swapEndian (0 * 2 ^ 24 + 0 * 2 ^ 16 + 8 * 2 ^ 8 + 3)
        = 3 * 2 ^ 24 + 8 * 2 ^ 16 + 0 * 2 ^ 8 + 0 ∧
    swapEndian (swapEndian 2051) = 2051 :=
  ⟨swapEndian_reverses_bytes.1 0 0 8 3 (by decide) (by decide) (by decide) (by decide),
    swapEndian_reverses_bytes.2.2 2051 (by decide)⟩

end CNN
